import Mathlib

/-!
Verification of the regexp front end of rslex (src/regexp.rs): a hand-written
tokenizer with one token of pushback and a recursive-descent parser producing
an abstract syntax tree.  The Rust code is shallowly embedded: the character
buffer is a `List Char`, mutation becomes explicit state passing on a
`TokenStream` structure, and the `fail!` aborts of the source become an
`Except` error result.  The mutually recursive parsing functions take a fuel
parameter; fuel adequacy (a fuel bound under which fuel is never exhausted)
is proved below, which is the termination property of the source.
-/

namespace Rslex

/-- Token type, from `enum Token` in src/regexp.rs.  Identifier and string
payloads are kept as `List Char` (the character sequence of the Rust `~str`). -/
inductive Token where
  | LBrack
  | RBrack
  | Id (s : List Char)
  | LParen
  | RParen
  | Asterisk
  | Plus
  | Bar
  | Dash
  | String (s : List Char)
  | End
  | Eof
  | Error (c : Char)
deriving DecidableEq, Repr

/-- Character-class item, from `enum ClassItem` in src/regexp.rs. -/
inductive ClassItem where
  | Singles (s : List Char)
  | Range (lo hi : Char)
deriving DecidableEq, Repr

/-- Abstract syntax tree, from `enum Ast` in src/regexp.rs. -/
inductive Ast where
  | Symb (s : List Char)
  | Str (s : List Char)
  | Union (left right : Ast)
  | Conc (left right : Ast)
  | Star (inner : Ast)
  | OnePlus (inner : Ast)
  | CharClass (items : List ClassItem)
  | Epsilon
deriving DecidableEq, Repr

/-- Error outcome of a parse.  The source aborts with `fail!`; each abort site
becomes a constructor here.  `fuelOut` is exhaustion of the explicit fuel of
the embedded mutual recursion (the source has no counterpart; fuel adequacy is
proved below).  `boundsError` is the runtime failure of `char_at` on an
out-of-range index (`s1.char_at(0)` on an empty literal). -/
inductive PErr where
  | fuelOut
  | unterminatedString (delim : Char)
  | unexpectedToken (expected got : Token)
  | illFormedRange
  | unexpectedInClass (t : Token)
  | unexpectedInRegexp (t : Token)
  | unexpectedClosure
  | boundsError
deriving DecidableEq, Repr

/-- Modelled from the spec: the Character Source (`buffer::LookaheadBuffer`,
declared an external collaborator and not present under src/) is a stream of
characters with `next_char`, a one-character pushback `return_char`, and
`skip_whitespace` (spec section 6).  It is represented as the list of
characters still to be read; `next_char` consumes the head. -/
def next_char (b : List Char) : Option Char × List Char :=
  match b with
  | [] => (none, [])
  | c :: cs => (some c, cs)

/-- Modelled from the spec: pushing one character back onto the Character
Source; it is returned again by the next `next_char`. -/
def return_char (c : Char) (b : List Char) : List Char :=
  c :: b

/-- Modelled from the spec: advance the Character Source past any run of
whitespace characters. -/
def skip_whitespace (b : List Char) : List Char :=
  b.dropWhile Char.isWhitespace

/-- Scanner state, from `struct TokenStream` in src/regexp.rs: the character
buffer, the configured terminator characters, and the one-token lookahead
slot `peek`. -/
structure TokenStream where
  buffer : List Char
  term : List Char
  peek : Option Token
deriving DecidableEq, Repr

/-- From `fn is_id_char` in src/regexp.rs. -/
def is_id_char (c : Char) : Bool :=
  c.isAlphanum || c = '_'

/-- From `fn is_terminator` in src/regexp.rs. -/
def is_terminator (c : Char) (term : List Char) : Bool :=
  term.contains c

/-- From `fn parse_string` in src/regexp.rs: consume characters until the
delimiter recurs; the delimiter is not part of the result.  End of input
before the closing delimiter is the failure case (`none` here, a fatal
lexical error at the caller). -/
def parse_string (delim : Char) : List Char → Option (List Char × List Char)
  | [] => none
  | c :: cs =>
    if c = delim then some ([], cs)
    else
      match parse_string delim cs with
      | none => none
      | some (s, r) => some (c :: s, r)

/-- From `fn parse_id` in src/regexp.rs: accumulate the first character plus
the run of identifier characters; the first non-matching character is pushed
back onto the Character Source. -/
def parse_id (first : Char) (buf : List Char) : List Char × List Char :=
  match buf with
  | [] => ([first], [])
  | c :: cs =>
    if is_id_char c then
      let p := parse_id c cs
      (first :: p.1, p.2)
    else ([first], return_char c cs)

/-- From `fn next_token_raw` in src/regexp.rs: skip whitespace, read one
character and dispatch.  The match arms are kept in source order; in
particular an alphabetic character is an identifier even when it is also a
configured terminator, and quote characters win over terminators. -/
def next_token_raw (ts : TokenStream) : Except PErr (Token × TokenStream) :=
  match skip_whitespace ts.buffer with
  | [] => .ok (.Eof, { ts with buffer := [] })
  | c :: cs =>
    if c = '[' then .ok (.LBrack, { ts with buffer := cs })
    else if c = ']' then .ok (.RBrack, { ts with buffer := cs })
    else if c = '(' then .ok (.LParen, { ts with buffer := cs })
    else if c = ')' then .ok (.RParen, { ts with buffer := cs })
    else if c = '*' then .ok (.Asterisk, { ts with buffer := cs })
    else if c = '+' then .ok (.Plus, { ts with buffer := cs })
    else if c = '|' then .ok (.Bar, { ts with buffer := cs })
    else if c = '-' then .ok (.Dash, { ts with buffer := cs })
    else if c = '\'' then
      match parse_string '\'' cs with
      | none => .error (.unterminatedString '\'')
      | some (s, r) => .ok (.String s, { ts with buffer := r })
    else if c = '"' then
      match parse_string '"' cs with
      | none => .error (.unterminatedString '"')
      | some (s, r) => .ok (.String s, { ts with buffer := r })
    else if c.isAlpha then
      let p := parse_id c cs
      .ok (.Id p.1, { ts with buffer := p.2 })
    else if is_terminator c ts.term then .ok (.End, { ts with buffer := cs })
    else .ok (.Error c, { ts with buffer := cs })

/-- From `fn next_token` in src/regexp.rs: return the pushed-back token if one
is pending, otherwise scan; the lookahead slot is cleared either way. -/
def next_token (ts : TokenStream) : Except PErr (Token × TokenStream) :=
  match ts.peek with
  | some t => .ok (t, { ts with peek := none })
  | none =>
    match next_token_raw ts with
    | .error e => .error e
    | .ok (t, ts') => .ok (t, { ts' with peek := none })

/-- From `fn return_token` in src/regexp.rs: store one token in the lookahead
slot. -/
def return_token (ts : TokenStream) (tok : Token) : TokenStream :=
  { ts with peek := some tok }

/-- From `fn match_next_token` in src/regexp.rs: read a token and require it
to equal the expected one. -/
def match_next_token (ts : TokenStream) (t : Token) : Except PErr TokenStream :=
  match next_token ts with
  | .error e => .error e
  | .ok (rt, ts') => if rt = t then .ok ts' else .error (.unexpectedToken t rt)

/-- From `fn trailing_closure` in src/regexp.rs: read one token; an `Asterisk`
or `Plus` is consumed and reported, anything else is pushed back. -/
def trailing_closure (ts : TokenStream) : Except PErr (Option Token × TokenStream) :=
  match next_token ts with
  | .error e => .error e
  | .ok (.Asterisk, ts') => .ok (some .Asterisk, ts')
  | .ok (.Plus, ts') => .ok (some .Plus, ts')
  | .ok (t, ts') => .ok (none, return_token ts' t)

/-- The `~str::char_at` method used by the source on class-range literals:
indexing out of range is a runtime bounds failure. -/
def char_at (s : List Char) (i : Nat) : Except PErr Char :=
  match s.get? i with
  | some c => .ok c
  | none => .error .boundsError

/-- The loop body of `fn parse_character_class` in src/regexp.rs: repeatedly
read class items until `RBrack`.  A string literal followed by `Dash` and a
second literal appends a `Range` over the first character of each literal
(`char_at 0`, unguarded); a literal not followed by `Dash` appends `Singles`
after pushing the inspected token back; a bare `Dash` or any other token is a
fatal error.  `res` is the accumulator vector of the source. -/
def class_loop : Nat → TokenStream → List ClassItem → Except PErr (List ClassItem × TokenStream)
  | 0, _, _ => .error .fuelOut
  | Nat.succ fuel, ts, res =>
    match next_token ts with
    | .error e => .error e
    | .ok (.String s1, ts1) =>
      match next_token ts1 with
      | .error e => .error e
      | .ok (.Dash, ts2) =>
        match next_token ts2 with
        | .error e => .error e
        | .ok (.String s2, ts3) =>
          match char_at s1 0 with
          | .error e => .error e
          | .ok c1 =>
            match char_at s2 0 with
            | .error e => .error e
            | .ok c2 => class_loop fuel ts3 (res ++ [.Range c1 c2])
        | .ok _ => .error .illFormedRange
      | .ok (tok, ts2) => class_loop fuel (return_token ts2 tok) (res ++ [.Singles s1])
    | .ok (.Dash, _) => .error .illFormedRange
    | .ok (.RBrack, ts1) => .ok (res, ts1)
    | .ok (tok, _) => .error (.unexpectedInClass tok)

/-- From `fn parse_character_class` in src/regexp.rs: run the item loop and
wrap the accumulated items in a `CharClass` node. -/
def parse_character_class (fuel : Nat) (ts : TokenStream) : Except PErr (Ast × TokenStream) :=
  match class_loop fuel ts [] with
  | .error e => .error e
  | .ok (items, ts') => .ok (.CharClass items, ts')

/-- From `fn parse_union` in src/regexp.rs: parse a concatenation; if the next
token is `Bar`, consume it and parse a union on the right, else push the token
back.  The mutually recursive calls of the source are taken as parameters
(`punion`, `pconcat`), tied below by `parsers` with one unit of fuel per
recursive call. -/
def parse_union_body (punion pconcat : TokenStream → Except PErr (Ast × TokenStream))
    (ts : TokenStream) : Except PErr (Ast × TokenStream) :=
  match pconcat ts with
  | .error e => .error e
  | .ok (left, ts1) =>
    match next_token ts1 with
    | .error e => .error e
    | .ok (.Bar, ts2) =>
      match punion ts2 with
      | .error e => .error e
      | .ok (right, ts3) => .ok (.Union left right, ts3)
    | .ok (tok, ts2) => .ok (left, return_token ts2 tok)

/-- From `fn parse_concat` in src/regexp.rs: parse a factor; a following
`Bar`, `End` or `RParen` is pushed back and ends the concatenation, any other
token is pushed back and a concatenation is parsed on the right. -/
def parse_concat_body (pfactor pconcat : TokenStream → Except PErr (Ast × TokenStream))
    (ts : TokenStream) : Except PErr (Ast × TokenStream) :=
  match pfactor ts with
  | .error e => .error e
  | .ok (left, ts1) =>
    match next_token ts1 with
    | .error e => .error e
    | .ok (.Bar, ts2) => .ok (left, return_token ts2 .Bar)
    | .ok (.End, ts2) => .ok (left, return_token ts2 .End)
    | .ok (.RParen, ts2) => .ok (left, return_token ts2 .RParen)
    | .ok (tok, ts2) =>
      match pconcat (return_token ts2 tok) with
      | .error e => .error e
      | .ok (right, ts3) => .ok (.Conc left right, ts3)

/-- From `fn parse_factor` in src/regexp.rs: dispatch on one token
(parenthesized regexp, character class, identifier or string literal), then
apply a trailing closure if present. -/
def parse_factor_body (punion pclass : TokenStream → Except PErr (Ast × TokenStream))
    (ts : TokenStream) : Except PErr (Ast × TokenStream) :=
  match next_token ts with
  | .error e => .error e
  | .ok (t, ts1) =>
    let pre : Except PErr (Ast × TokenStream) :=
      match t with
      | .LParen =>
        match punion ts1 with
        | .error e => .error e
        | .ok (e, ts2) =>
          match match_next_token ts2 .RParen with
          | .error err => .error err
          | .ok ts3 => .ok (e, ts3)
      | .LBrack => pclass ts1
      | .Id s => .ok (.Symb s, ts1)
      | .String s => .ok (.Str s, ts1)
      | tok => .error (.unexpectedInRegexp tok)
    match pre with
    | .error e => .error e
    | .ok (p, ts2) =>
      match trailing_closure ts2 with
      | .error e => .error e
      | .ok (some .Asterisk, ts3) => .ok (.Star p, ts3)
      | .ok (some .Plus, ts3) => .ok (.OnePlus p, ts3)
      | .ok (some _, _) => .error .unexpectedClosure
      | .ok (none, ts3) => .ok (p, ts3)

/-- The triple (`parse_union`, `parse_concat`, `parse_factor`) at each fuel,
tying the mutual recursion of the source: every recursive call costs one unit
of fuel, and exhausted fuel is the distinguished `fuelOut` outcome (which
fuel adequacy below proves unreachable with fuel linear in the input). -/
def parsers : Nat →
    (TokenStream → Except PErr (Ast × TokenStream)) ×
    (TokenStream → Except PErr (Ast × TokenStream)) ×
    (TokenStream → Except PErr (Ast × TokenStream))
  | 0 => (fun _ => .error .fuelOut, fun _ => .error .fuelOut, fun _ => .error .fuelOut)
  | fuel+1 =>
    (parse_union_body (parsers fuel).1 (parsers fuel).2.1,
     parse_concat_body (parsers fuel).2.2 (parsers fuel).2.1,
     parse_factor_body (parsers fuel).1 (parse_character_class fuel))

/-- `fn parse_union` of src/regexp.rs at a given fuel. -/
def parse_union (fuel : Nat) (ts : TokenStream) : Except PErr (Ast × TokenStream) :=
  (parsers fuel).1 ts

/-- `fn parse_concat` of src/regexp.rs at a given fuel. -/
def parse_concat (fuel : Nat) (ts : TokenStream) : Except PErr (Ast × TokenStream) :=
  (parsers fuel).2.1 ts

/-- `fn parse_factor` of src/regexp.rs at a given fuel. -/
def parse_factor (fuel : Nat) (ts : TokenStream) : Except PErr (Ast × TokenStream) :=
  (parsers fuel).2.2 ts

/-- From `fn parse_regexp` in src/regexp.rs: the public entry point, an alias
for `parse_union`. -/
def parse_regexp (fuel : Nat) (ts : TokenStream) : Except PErr (Ast × TokenStream) :=
  parse_union fuel ts

/-- Initial scanner state for a raw input and terminator set: nothing read,
no pending pushback. -/
def initTS (input : List Char) (term : List Char) : TokenStream :=
  { buffer := input, term := term, peek := none }

/-- Weight of the lookahead slot: one when a token is pending. -/
def peekW : Option Token → Nat
  | none => 0
  | some _ => 1

/-- Measure of a scanner state: two per unconsumed character plus one for a
pending lookahead token.  The recursive-descent parse decreases it except on
the pushback-and-reread of a raw end-of-input token, which the adequacy
proof below handles as a separate absorbing state. -/
def mu (ts : TokenStream) : Nat :=
  2 * ts.buffer.length + peekW ts.peek

/-- The absorbing scanner state in which the raw end of input has been read
and pushed back: the buffer is exhausted and `Eof` is pending. -/
def EofState (ts : TokenStream) : Prop :=
  ts.buffer = [] ∧ ts.peek = some .Eof

/-- Fuel adequacy statement for `parse_factor` at a given state: fuel is not
exhausted, and a successful parse strictly decreases the measure or ends in
the absorbing end-of-input state. -/
def GoodFactor (fuel : Nat) (ts : TokenStream) : Prop :=
  parse_factor fuel ts ≠ .error .fuelOut ∧
  ∀ a ts', parse_factor fuel ts = .ok (a, ts') → mu ts' < mu ts ∨ EofState ts'

/-- Fuel adequacy statement for `class_loop` at a given state, for every
accumulator: fuel is not exhausted, and success does not increase the measure
and leaves no pending token. -/
def GoodClass (fuel : Nat) (ts : TokenStream) : Prop :=
  ∀ res, class_loop fuel ts res ≠ .error .fuelOut ∧
    ∀ items ts', class_loop fuel ts res = .ok (items, ts') →
      mu ts' ≤ mu ts ∧ ts'.peek = none

/-- Fuel adequacy statement for `parse_concat` at a given state. -/
def GoodConcat (fuel : Nat) (ts : TokenStream) : Prop :=
  parse_concat fuel ts ≠ .error .fuelOut ∧
  ∀ a ts', parse_concat fuel ts = .ok (a, ts') → mu ts' ≤ mu ts ∨ EofState ts'

/-- Fuel adequacy statement for `parse_union` at a given state. -/
def GoodUnion (fuel : Nat) (ts : TokenStream) : Prop :=
  parse_union fuel ts ≠ .error .fuelOut ∧
  ∀ a ts', parse_union fuel ts = .ok (a, ts') → mu ts' ≤ mu ts ∨ EofState ts'

/-- An identifier atom of a chain: its leading character paired with the rest
of its characters. -/
def idWord (a : Char × List Char) : List Char :=
  a.1 :: a.2

/-- An atom lexes as one identifier exactly when its leading character is
alphabetic and the remaining characters are identifier characters. -/
abbrev goodWord (a : Char × List Char) : Prop :=
  a.1.isAlpha = true ∧ ∀ y ∈ a.2, is_id_char y = true

/-- The source text of an alternation chain after its first atom: each further
atom is preceded by a bar, and the chain ends with the comma terminator. -/
def unionTail : List (Char × List Char) → List Char
  | [] => [',']
  | b :: rest => '|' :: (idWord b ++ unionTail rest)

/-- The source text of an alternation chain of the given atoms, ended by the
comma terminator. -/
def unionChain (a : Char × List Char) (atoms : List (Char × List Char)) : List Char :=
  idWord a ++ unionTail atoms

/-- The right-nested union tree over the atoms of a chain. -/
def unionAst : (Char × List Char) → List (Char × List Char) → Ast
  | a, [] => .Symb (idWord a)
  | a, b :: rest => .Union (.Symb (idWord a)) (unionAst b rest)

/-- The source text of a concatenation chain after its first atom: each
further atom is preceded by a space, and the chain ends with the comma
terminator. -/
def concatTail : List (Char × List Char) → List Char
  | [] => [',']
  | b :: rest => ' ' :: (idWord b ++ concatTail rest)

/-- The source text of a concatenation chain of the given atoms, ended by the
comma terminator. -/
def concatChain (a : Char × List Char) (atoms : List (Char × List Char)) : List Char :=
  idWord a ++ concatTail atoms

/-- The right-nested concatenation tree over the atoms of a chain. -/
def concatAst : (Char × List Char) → List (Char × List Char) → Ast
  | a, [] => .Symb (idWord a)
  | a, b :: rest => .Conc (.Symb (idWord a)) (concatAst b rest)

theorem parse_union_zero (ts : TokenStream) : parse_union 0 ts = .error .fuelOut := rfl

theorem parse_union_succ (fuel : Nat) (ts : TokenStream) :
    parse_union (fuel+1) ts =
      parse_union_body (parse_union fuel) (parse_concat fuel) ts := rfl

theorem parse_concat_zero (ts : TokenStream) : parse_concat 0 ts = .error .fuelOut := rfl

theorem parse_concat_succ (fuel : Nat) (ts : TokenStream) :
    parse_concat (fuel+1) ts =
      parse_concat_body (parse_factor fuel) (parse_concat fuel) ts := rfl

theorem parse_factor_zero (ts : TokenStream) : parse_factor 0 ts = .error .fuelOut := rfl

theorem parse_factor_succ (fuel : Nat) (ts : TokenStream) :
    parse_factor (fuel+1) ts =
      parse_factor_body (parse_union fuel) (parse_character_class fuel) ts := rfl

theorem dropWhile_length_le {α : Type} (p : α → Bool) (l : List α) :
    (l.dropWhile p).length ≤ l.length := by
  induction l with
  | nil => simp
  | cons a l ih =>
    rw [List.dropWhile_cons]
    by_cases h : p a
    · rw [if_pos h]; exact Nat.le_succ_of_le ih
    · rw [if_neg h]

theorem dropWhile_head_not {α : Type} {p : α → Bool} :
    ∀ {l : List α} {c : α} {cs : List α}, l.dropWhile p = c :: cs → p c = false := by
  intro l
  induction l with
  | nil => intro c cs h; simp [List.dropWhile] at h
  | cons a l ih =>
    intro c cs h
    rw [List.dropWhile_cons] at h
    by_cases ha : p a
    · rw [if_pos ha] at h; exact ih h
    · rw [if_neg ha] at h
      cases h
      simpa using ha

theorem parse_string_eq (delim : Char) (buf : List Char) :
    parse_string delim buf =
      if delim ∈ buf then
        some (buf.takeWhile (fun c => c != delim), (buf.dropWhile (fun c => c != delim)).tail)
      else none := by
  induction buf with
  | nil => simp [parse_string]
  | cons c cs ih =>
    by_cases hc : c = delim
    · subst hc
      simp [parse_string, List.takeWhile_cons, List.dropWhile_cons]
    · rw [parse_string, if_neg hc, ih]
      by_cases hm : delim ∈ cs
      · simp [hm, List.takeWhile_cons, List.dropWhile_cons, hc, Ne.symm hc]
      · simp [hm, hc, Ne.symm hc]

theorem parse_string_length {delim : Char} {buf s r : List Char}
    (h : parse_string delim buf = some (s, r)) : r.length < buf.length := by
  rw [parse_string_eq] at h
  by_cases hm : delim ∈ buf
  · rw [if_pos hm] at h
    simp only [Option.some.injEq, Prod.mk.injEq] at h
    obtain ⟨-, hr⟩ := h
    subst hr
    have h1 : buf.dropWhile (fun c => c != delim) ≠ [] := by
      intro hnil
      rw [List.dropWhile_eq_nil_iff] at hnil
      have := hnil delim hm
      simp at this
    have h2 := dropWhile_length_le (fun c => c != delim) buf
    have h3 := List.length_tail (buf.dropWhile (fun c => c != delim))
    have h4 : 0 < (buf.dropWhile (fun c => c != delim)).length := List.length_pos.mpr h1
    have h5 : buf ≠ [] := by rintro rfl; simp at hm
    have h6 : 0 < buf.length := List.length_pos.mpr h5
    omega
  · rw [if_neg hm] at h
    simp at h

theorem parse_id_eq (first : Char) (buf : List Char) :
    parse_id first buf = (first :: buf.takeWhile is_id_char, buf.dropWhile is_id_char) := by
  induction buf generalizing first with
  | nil => simp [parse_id]
  | cons c cs ih =>
    rw [parse_id]
    by_cases h : is_id_char c
    · simp [h, ih c, List.takeWhile_cons, List.dropWhile_cons]
    · simp [h, return_char, List.takeWhile_cons, List.dropWhile_cons]

theorem parse_id_length (first : Char) (buf : List Char) :
    (parse_id first buf).2.length ≤ buf.length := by
  rw [parse_id_eq]
  exact dropWhile_length_le is_id_char buf

theorem skip_whitespace_length (b : List Char) : (skip_whitespace b).length ≤ b.length :=
  dropWhile_length_le Char.isWhitespace b

theorem raw_branch_spec {ts : TokenStream} {t tok : Token} {ts' : TokenStream} {b : List Char}
    (h : (Except.ok (tok, { buffer := b, term := ts.term, peek := ts.peek }) :
            Except PErr (Token × TokenStream)) = Except.ok (t, ts'))
    (hEof : tok ≠ Token.Eof) (hlen : b.length < ts.buffer.length) :
    ts'.peek = ts.peek ∧ ts'.term = ts.term ∧
    (t = .Eof → ts'.buffer = []) ∧
    (t ≠ .Eof → ts'.buffer.length < ts.buffer.length) := by
  simp only [Except.ok.injEq, Prod.mk.injEq] at h
  obtain ⟨ht, hts⟩ := h
  subst ht; subst hts
  exact ⟨rfl, rfl, fun hE => absurd hE hEof, fun _ => hlen⟩

theorem next_token_raw_spec {ts : TokenStream} {t : Token} {ts' : TokenStream}
    (h : next_token_raw ts = .ok (t, ts')) :
    ts'.peek = ts.peek ∧ ts'.term = ts.term ∧
    (t = .Eof → ts'.buffer = []) ∧
    (t ≠ .Eof → ts'.buffer.length < ts.buffer.length) := by
  have hsl := skip_whitespace_length ts.buffer
  unfold next_token_raw at h
  split at h
  · -- end of input after whitespace
    simp only [Except.ok.injEq, Prod.mk.injEq] at h
    obtain ⟨ht, hts⟩ := h
    subst ht; subst hts
    exact ⟨rfl, rfl, fun _ => rfl, fun hne => absurd rfl hne⟩
  · rename_i c cs hsw
    rw [hsw] at hsl
    simp only [List.length_cons] at hsl
    have hpid := parse_id_length c cs
    by_cases h1 : c = '['
    · rw [if_pos h1] at h; exact raw_branch_spec h (by simp) (by omega)
    rw [if_neg h1] at h
    by_cases h2 : c = ']'
    · rw [if_pos h2] at h; exact raw_branch_spec h (by simp) (by omega)
    rw [if_neg h2] at h
    by_cases h3 : c = '('
    · rw [if_pos h3] at h; exact raw_branch_spec h (by simp) (by omega)
    rw [if_neg h3] at h
    by_cases h4 : c = ')'
    · rw [if_pos h4] at h; exact raw_branch_spec h (by simp) (by omega)
    rw [if_neg h4] at h
    by_cases h5 : c = '*'
    · rw [if_pos h5] at h; exact raw_branch_spec h (by simp) (by omega)
    rw [if_neg h5] at h
    by_cases h6 : c = '+'
    · rw [if_pos h6] at h; exact raw_branch_spec h (by simp) (by omega)
    rw [if_neg h6] at h
    by_cases h7 : c = '|'
    · rw [if_pos h7] at h; exact raw_branch_spec h (by simp) (by omega)
    rw [if_neg h7] at h
    by_cases h8 : c = '-'
    · rw [if_pos h8] at h; exact raw_branch_spec h (by simp) (by omega)
    rw [if_neg h8] at h
    by_cases h9 : c = '\''
    · rw [if_pos h9] at h
      cases hps : parse_string '\'' cs with
      | none => rw [hps] at h; simp at h
      | some p =>
        obtain ⟨s, r⟩ := p
        rw [hps] at h
        dsimp only at h
        have hpsl := parse_string_length hps
        exact raw_branch_spec h (by simp) (by omega)
    rw [if_neg h9] at h
    by_cases h10 : c = '"'
    · rw [if_pos h10] at h
      cases hps : parse_string '"' cs with
      | none => rw [hps] at h; simp at h
      | some p =>
        obtain ⟨s, r⟩ := p
        rw [hps] at h
        dsimp only at h
        have hpsl := parse_string_length hps
        exact raw_branch_spec h (by simp) (by omega)
    rw [if_neg h10] at h
    by_cases h11 : c.isAlpha = true
    · rw [if_pos h11] at h
      dsimp only at h
      exact raw_branch_spec h (by simp) (by omega)
    rw [if_neg h11] at h
    by_cases h12 : is_terminator c ts.term = true
    · rw [if_pos h12] at h; exact raw_branch_spec h (by simp) (by omega)
    rw [if_neg h12] at h
    exact raw_branch_spec h (by simp) (by omega)

theorem next_token_spec {ts : TokenStream} {t : Token} {ts' : TokenStream}
    (h : next_token ts = .ok (t, ts')) :
    ts'.peek = none ∧ ts'.term = ts.term ∧ mu ts' ≤ mu ts ∧
    (t ≠ .Eof → mu ts' < mu ts) ∧
    (t = .Eof → ts'.buffer = [] ∨ mu ts' < mu ts) ∧
    (ts.peek = none → t = .Eof → ts'.buffer = []) := by
  unfold next_token at h
  cases hp : ts.peek with
  | some t0 =>
    rw [hp] at h
    simp only [Except.ok.injEq, Prod.mk.injEq] at h
    obtain ⟨ht, hts⟩ := h
    subst ht; subst hts
    have hmu : mu { ts with peek := none } < mu ts := by
      simp only [mu, hp, peekW]; omega
    refine ⟨rfl, rfl, Nat.le_of_lt hmu, fun _ => hmu, fun _ => Or.inr hmu, ?_⟩
    intro hnone
    cases hnone
  | none =>
    rw [hp] at h
    cases hr : next_token_raw ts with
    | error e => rw [hr] at h; cases h
    | ok p =>
      obtain ⟨t0, ts0⟩ := p
      rw [hr] at h
      simp only [Except.ok.injEq, Prod.mk.injEq] at h
      obtain ⟨ht, hts⟩ := h
      subst ht; subst hts
      obtain ⟨hpk, htm, hEofb, hlen⟩ := next_token_raw_spec hr
      have hmts : mu ts = 2 * ts.buffer.length := by simp [mu, hp, peekW]
      have hmts' : mu { ts0 with peek := none } = 2 * ts0.buffer.length := by
        simp [mu, peekW]
      by_cases ht0 : t0 = .Eof
      · have hb := hEofb ht0
        subst ht0
        refine ⟨rfl, htm, ?_, fun hne => absurd rfl hne, fun _ => Or.inl hb, fun _ _ => hb⟩
        rw [hmts, hmts', hb]
        simp
      · have hl := hlen ht0
        have hlt : mu { ts0 with peek := none } < mu ts := by rw [hmts, hmts']; omega
        exact ⟨rfl, htm, Nat.le_of_lt hlt, fun _ => hlt, fun hEq => absurd hEq ht0,
          fun _ hEq => absurd hEq ht0⟩

theorem next_token_raw_error {ts : TokenStream} {e : PErr}
    (h : next_token_raw ts = .error e) :
    e = .unterminatedString '\'' ∨ e = .unterminatedString '"' := by
  unfold next_token_raw at h
  split at h
  · cases h
  · rename_i c cs hsw
    by_cases h1 : c = '['
    · rw [if_pos h1] at h; cases h
    rw [if_neg h1] at h
    by_cases h2 : c = ']'
    · rw [if_pos h2] at h; cases h
    rw [if_neg h2] at h
    by_cases h3 : c = '('
    · rw [if_pos h3] at h; cases h
    rw [if_neg h3] at h
    by_cases h4 : c = ')'
    · rw [if_pos h4] at h; cases h
    rw [if_neg h4] at h
    by_cases h5 : c = '*'
    · rw [if_pos h5] at h; cases h
    rw [if_neg h5] at h
    by_cases h6 : c = '+'
    · rw [if_pos h6] at h; cases h
    rw [if_neg h6] at h
    by_cases h7 : c = '|'
    · rw [if_pos h7] at h; cases h
    rw [if_neg h7] at h
    by_cases h8 : c = '-'
    · rw [if_pos h8] at h; cases h
    rw [if_neg h8] at h
    by_cases h9 : c = '\''
    · rw [if_pos h9] at h
      cases hps : parse_string '\'' cs with
      | none => exact Or.inl (by rw [hps] at h; simpa using h.symm)
      | some p => obtain ⟨s, r⟩ := p; rw [hps] at h; cases h
    rw [if_neg h9] at h
    by_cases h10 : c = '"'
    · rw [if_pos h10] at h
      cases hps : parse_string '"' cs with
      | none => exact Or.inr (by rw [hps] at h; simpa using h.symm)
      | some p => obtain ⟨s, r⟩ := p; rw [hps] at h; cases h
    rw [if_neg h10] at h
    by_cases h11 : c.isAlpha = true
    · rw [if_pos h11] at h; cases h
    rw [if_neg h11] at h
    by_cases h12 : is_terminator c ts.term = true
    · rw [if_pos h12] at h; cases h
    rw [if_neg h12] at h
    cases h

theorem next_token_no_fuelOut (ts : TokenStream) : next_token ts ≠ .error .fuelOut := by
  intro h
  unfold next_token at h
  cases hp : ts.peek with
  | some t0 => rw [hp] at h; cases h
  | none =>
    rw [hp] at h
    cases hr : next_token_raw ts with
    | error e =>
      rw [hr] at h
      cases h
      rcases next_token_raw_error hr with h1 | h1 <;> cases h1
    | ok p => obtain ⟨t0, ts0⟩ := p; rw [hr] at h; cases h

theorem next_token_error_not_fuelOut {ts : TokenStream} {e : PErr}
    (h : next_token ts = .error e) : e ≠ .fuelOut := by
  intro hf
  subst hf
  exact next_token_no_fuelOut ts h

theorem match_next_token_spec {ts : TokenStream} {t : Token} {ts' : TokenStream}
    (h : match_next_token ts t = .ok ts') : next_token ts = .ok (t, ts') := by
  unfold match_next_token at h
  cases hn : next_token ts with
  | error e => rw [hn] at h; cases h
  | ok p =>
    obtain ⟨rt, ts1⟩ := p
    rw [hn] at h
    dsimp only at h
    by_cases hrt : rt = t
    · rw [if_pos hrt] at h
      cases h
      rw [hrt]
    · rw [if_neg hrt] at h; cases h

theorem match_next_token_error_not_fuelOut {ts : TokenStream} {t : Token} {e : PErr}
    (h : match_next_token ts t = .error e) : e ≠ .fuelOut := by
  intro hf
  subst hf
  unfold match_next_token at h
  cases hn : next_token ts with
  | error e0 =>
    rw [hn] at h
    cases h
    exact next_token_error_not_fuelOut hn rfl
  | ok p =>
    obtain ⟨rt, ts1⟩ := p
    rw [hn] at h
    dsimp only at h
    by_cases hrt : rt = t
    · rw [if_pos hrt] at h; cases h
    · rw [if_neg hrt] at h; cases h

theorem mu_return_token (ts : TokenStream) (tok : Token) :
    mu (return_token ts tok) = 2 * ts.buffer.length + 1 := by
  simp [mu, return_token, peekW]

theorem mu_peek_none {ts : TokenStream} (h : ts.peek = none) :
    mu ts = 2 * ts.buffer.length := by
  simp [mu, h, peekW]

theorem next_token_eofstate {ts : TokenStream} (h : EofState ts) :
    next_token ts = .ok (.Eof, { ts with peek := none }) := by
  obtain ⟨h1, h2⟩ := h
  unfold next_token
  rw [h2]

theorem trailing_closure_spec {ts : TokenStream} {o : Option Token} {ts' : TokenStream}
    (h : trailing_closure ts = .ok (o, ts')) :
    mu ts' ≤ mu ts ∨ EofState ts' := by
  unfold trailing_closure at h
  cases hn : next_token ts with
  | error e => rw [hn] at h; cases h
  | ok p =>
    obtain ⟨t, ts1⟩ := p
    rw [hn] at h
    obtain ⟨hp1, -, hle, hlt, hEof, -⟩ := next_token_spec hn
    cases t with
    | Asterisk => cases h; exact Or.inl hle
    | Plus => cases h; exact Or.inl hle
    | Eof =>
      cases h
      rcases hEof rfl with hb | hl
      · exact Or.inr ⟨hb, rfl⟩
      · refine Or.inl ?_
        rw [mu_return_token, ← mu_peek_none hp1]
        omega
    | LBrack =>
      cases h
      have := hlt (by simp)
      refine Or.inl ?_
      rw [mu_return_token, ← mu_peek_none hp1]
      omega
    | RBrack =>
      cases h
      have := hlt (by simp)
      refine Or.inl ?_
      rw [mu_return_token, ← mu_peek_none hp1]
      omega
    | Id s =>
      cases h
      have := hlt (by simp)
      refine Or.inl ?_
      rw [mu_return_token, ← mu_peek_none hp1]
      omega
    | LParen =>
      cases h
      have := hlt (by simp)
      refine Or.inl ?_
      rw [mu_return_token, ← mu_peek_none hp1]
      omega
    | RParen =>
      cases h
      have := hlt (by simp)
      refine Or.inl ?_
      rw [mu_return_token, ← mu_peek_none hp1]
      omega
    | Bar =>
      cases h
      have := hlt (by simp)
      refine Or.inl ?_
      rw [mu_return_token, ← mu_peek_none hp1]
      omega
    | Dash =>
      cases h
      have := hlt (by simp)
      refine Or.inl ?_
      rw [mu_return_token, ← mu_peek_none hp1]
      omega
    | String s =>
      cases h
      have := hlt (by simp)
      refine Or.inl ?_
      rw [mu_return_token, ← mu_peek_none hp1]
      omega
    | End =>
      cases h
      have := hlt (by simp)
      refine Or.inl ?_
      rw [mu_return_token, ← mu_peek_none hp1]
      omega
    | Error c =>
      cases h
      have := hlt (by simp)
      refine Or.inl ?_
      rw [mu_return_token, ← mu_peek_none hp1]
      omega

theorem trailing_closure_error_not_fuelOut {ts : TokenStream} {e : PErr}
    (h : trailing_closure ts = .error e) : e ≠ .fuelOut := by
  intro hf
  subst hf
  unfold trailing_closure at h
  cases hn : next_token ts with
  | error e0 =>
    rw [hn] at h
    cases h
    exact next_token_error_not_fuelOut hn rfl
  | ok p =>
    obtain ⟨t, ts1⟩ := p
    rw [hn] at h
    cases t <;> cases h

theorem char_at_error {s : List Char} {i : Nat} {e : PErr}
    (h : char_at s i = .error e) : e = .boundsError := by
  unfold char_at at h
  cases hg : s.get? i with
  | none => rw [hg] at h; cases h; rfl
  | some c => rw [hg] at h; cases h

theorem parse_factor_eofstate {ts : TokenStream} (h1 : ts.buffer = [])
    (h2 : ts.peek = some .Eof) (fuel : Nat) :
    parse_factor (fuel + 1) ts = .error (.unexpectedInRegexp .Eof) := by
  obtain ⟨b, tm, pk⟩ := ts
  dsimp only at h1 h2
  subst h1; subst h2
  rfl

theorem parse_concat_eofstate {ts : TokenStream} (h1 : ts.buffer = [])
    (h2 : ts.peek = some .Eof) (fuel : Nat) :
    parse_concat (fuel + 2) ts = .error (.unexpectedInRegexp .Eof) := by
  obtain ⟨b, tm, pk⟩ := ts
  dsimp only at h1 h2
  subst h1; subst h2
  rfl

theorem class_loop_eofstate {ts : TokenStream} (h1 : ts.buffer = [])
    (h2 : ts.peek = some .Eof) (fuel : Nat) (res : List ClassItem) :
    class_loop (fuel + 1) ts res = .error (.unexpectedInClass .Eof) := by
  obtain ⟨b, tm, pk⟩ := ts
  dsimp only at h1 h2
  subst h1; subst h2
  rfl

theorem parsers_adequate (n : Nat) : ∀ ts : TokenStream, mu ts ≤ n →
    (∀ fuel : Nat, 4*n+12 ≤ fuel → GoodFactor fuel ts) ∧
    (∀ fuel : Nat, 4*n+12 ≤ fuel → GoodClass fuel ts) ∧
    (∀ fuel : Nat, 4*n+13 ≤ fuel → GoodConcat fuel ts) ∧
    (∀ fuel : Nat, 4*n+14 ≤ fuel → GoodUnion fuel ts) := by
  induction n using Nat.strong_induction_on with
  | _ n IH =>
    intro ts hts
    have IHfactor : ∀ st : TokenStream, mu st < n → ∀ f0, 4*n+8 ≤ f0 → GoodFactor f0 st := by
      intro st h1 f0 h2
      exact ((IH (n-1) (by omega)) st (by omega)).1 f0 (by omega)
    have IHclass : ∀ st : TokenStream, mu st < n → ∀ f0, 4*n+8 ≤ f0 → GoodClass f0 st := by
      intro st h1 f0 h2
      exact ((IH (n-1) (by omega)) st (by omega)).2.1 f0 (by omega)
    have IHconcat : ∀ st : TokenStream, mu st < n → ∀ f0, 4*n+9 ≤ f0 → GoodConcat f0 st := by
      intro st h1 f0 h2
      exact ((IH (n-1) (by omega)) st (by omega)).2.2.1 f0 (by omega)
    have IHunion : ∀ st : TokenStream, mu st < n → ∀ f0, 4*n+10 ≤ f0 → GoodUnion f0 st := by
      intro st h1 f0 h2
      exact ((IH (n-1) (by omega)) st (by omega)).2.2.2 f0 (by omega)
    have hClass : ∀ fuel, 4*n+12 ≤ fuel → GoodClass fuel ts := by
      intro fuel hfuel
      unfold GoodClass
      intro res
      obtain ⟨f, rfl⟩ : ∃ f, fuel = f + 1 := ⟨fuel - 1, by omega⟩
      simp only [class_loop]
      cases hn : next_token ts with
      | error e =>
        dsimp only
        refine ⟨fun hcontra => ?_, fun items ts' hcontra => by cases hcontra⟩
        cases hcontra
        exact next_token_error_not_fuelOut hn rfl
      | ok p =>
        obtain ⟨t, ts1⟩ := p
        obtain ⟨hp1, htm1, hle1, hlt1, hEof1, hpn1⟩ := next_token_spec hn
        cases t
        case String s1 =>
          dsimp only
          have hmu1 : mu ts1 < mu ts := hlt1 (by simp)
          cases hn2 : next_token ts1 with
          | error e =>
            dsimp only
            refine ⟨fun hcontra => ?_, fun items ts' hcontra => by cases hcontra⟩
            cases hcontra
            exact next_token_error_not_fuelOut hn2 rfl
          | ok p2 =>
            obtain ⟨t2, ts2⟩ := p2
            obtain ⟨hp2, htm2, hle2, hlt2, hEof2, hpn2⟩ := next_token_spec hn2
            split
            · rename_i e heq
              cases heq
            · -- a Dash follows: range item
              rename_i ts2b heq
              injection heq with hpair
              injection hpair with h1 h2
              rw [← h2]
              have hlt2x : mu ts2 < mu ts1 := hlt2 (by rw [h1]; simp)
              cases hn3 : next_token ts2 with
              | error e =>
                dsimp only
                refine ⟨fun hcontra => ?_, fun items ts' hcontra => by cases hcontra⟩
                cases hcontra
                exact next_token_error_not_fuelOut hn3 rfl
              | ok p3 =>
                obtain ⟨t3, ts3⟩ := p3
                obtain ⟨hp3, htm3, hle3, hlt3, hEof3, hpn3⟩ := next_token_spec hn3
                split
                · rename_i e heq2
                  cases heq2
                · -- second literal of the range
                  rename_i s2 ts3b heq2
                  injection heq2 with hpair2
                  injection hpair2 with h3 h4
                  rw [← h4]
                  have hlt3x : mu ts3 < mu ts2 := hlt3 (by rw [h3]; simp)
                  cases hc1 : char_at s1 0 with
                  | error e =>
                    dsimp only
                    refine ⟨fun hcontra => ?_, fun items ts' hcontra => by cases hcontra⟩
                    cases hcontra
                    cases char_at_error hc1
                  | ok c1 =>
                    dsimp only
                    cases hc2 : char_at s2 0 with
                    | error e =>
                      dsimp only
                      refine ⟨fun hcontra => ?_, fun items ts' hcontra => by cases hcontra⟩
                      cases hcontra
                      cases char_at_error hc2
                    | ok c2 =>
                      dsimp only
                      obtain ⟨hg1, hg2⟩ :=
                        (IHclass ts3 (by omega) f (by omega)) (res ++ [ClassItem.Range c1 c2])
                      refine ⟨hg1, fun items ts' hok => ?_⟩
                      obtain ⟨hb1, hb2⟩ := hg2 items ts' hok
                      exact ⟨by omega, hb2⟩
                · -- any other token after the Dash: ill-formed range
                  exact ⟨(fun hcontra => by cases hcontra),
                    fun items ts' hcontra => by cases hcontra⟩
            · -- no Dash: singles item, push the token back and loop
              rename_i tok ts2b hnd heq
              injection heq with hpair
              injection hpair with h1 h2
              rw [← h1, ← h2]
              by_cases htok : t2 = Token.Eof
              · subst htok
                rcases hEof2 rfl with hb | hlt2x
                · obtain ⟨f', rfl⟩ : ∃ f', f = f' + 1 := ⟨f - 1, by omega⟩
                  rw [class_loop_eofstate (by simpa [return_token] using hb)
                    (by simp [return_token]) f' (res ++ [ClassItem.Singles s1])]
                  exact ⟨(fun hcontra => by cases hcontra),
                    fun items ts' hcontra => by cases hcontra⟩
                · obtain ⟨hg1, hg2⟩ :=
                    (IHclass (return_token ts2 Token.Eof)
                      (by rw [mu_return_token]; have h6 := mu_peek_none hp2; omega)
                      f (by omega)) (res ++ [ClassItem.Singles s1])
                  refine ⟨hg1, fun items ts' hok => ?_⟩
                  obtain ⟨hb1, hb2⟩ := hg2 items ts' hok
                  refine ⟨?_, hb2⟩
                  rw [mu_return_token] at hb1
                  have h6 := mu_peek_none hp2
                  omega
              · have hlt2x : mu ts2 < mu ts1 := hlt2 htok
                obtain ⟨hg1, hg2⟩ :=
                  (IHclass (return_token ts2 t2)
                    (by rw [mu_return_token]; have h6 := mu_peek_none hp2; omega)
                    f (by omega)) (res ++ [ClassItem.Singles s1])
                refine ⟨hg1, fun items ts' hok => ?_⟩
                obtain ⟨hb1, hb2⟩ := hg2 items ts' hok
                refine ⟨?_, hb2⟩
                rw [mu_return_token] at hb1
                have h6 := mu_peek_none hp2
                omega
        case Dash =>
          dsimp only
          exact ⟨(fun hcontra => by cases hcontra), fun items ts' hcontra => by cases hcontra⟩
        case RBrack =>
          dsimp only
          refine ⟨(fun hcontra => by cases hcontra), fun items ts' hok => ?_⟩
          cases hok
          exact ⟨Nat.le_of_lt (hlt1 (by simp)), hp1⟩
        all_goals
          dsimp only
          exact ⟨(fun hcontra => by cases hcontra), fun items ts' hcontra => by cases hcontra⟩
    have hFactor : ∀ fuel, 4*n+12 ≤ fuel → GoodFactor fuel ts := by
      intro fuel hfuel
      unfold GoodFactor
      obtain ⟨f, rfl⟩ : ∃ f, fuel = f + 1 := ⟨fuel - 1, by omega⟩
      simp only [parse_factor_succ, parse_factor_body]
      cases hn : next_token ts with
      | error e =>
        dsimp only
        refine ⟨fun hcontra => ?_, fun a ts' hcontra => by cases hcontra⟩
        cases hcontra
        exact next_token_error_not_fuelOut hn rfl
      | ok p =>
        obtain ⟨t, ts1⟩ := p
        obtain ⟨hp1, htm1, hle1, hlt1, hEof1, hpn1⟩ := next_token_spec hn
        dsimp only
        cases t
        case LParen =>
          dsimp only
          have hmu1 : mu ts1 < mu ts := hlt1 (by simp)
          cases hpu : parse_union f ts1 with
          | error e =>
            dsimp only
            refine ⟨fun hcontra => ?_, fun a ts' hcontra => by cases hcontra⟩
            cases hcontra
            exact (IHunion ts1 (by omega) f (by omega)).1 hpu
          | ok p2 =>
            obtain ⟨ea, ts2⟩ := p2
            dsimp only
            have hdU := (IHunion ts1 (by omega) f (by omega)).2 ea ts2 hpu
            cases hm : match_next_token ts2 .RParen with
            | error e2 =>
              dsimp only
              refine ⟨fun hcontra => ?_, fun a ts' hcontra => by cases hcontra⟩
              cases hcontra
              exact match_next_token_error_not_fuelOut hm rfl
            | ok ts3 =>
              dsimp only
              have hmn := match_next_token_spec hm
              obtain ⟨hp3, htm3, hle3, hlt3, hEof3, hpn3⟩ := next_token_spec hmn
              have hlt3x : mu ts3 < mu ts2 := hlt3 (by simp)
              have hmu2 : mu ts2 ≤ mu ts1 := by
                rcases hdU with h | h
                · exact h
                · rw [next_token_eofstate h] at hmn; cases hmn
              cases ht : trailing_closure ts3 with
              | error e3 =>
                dsimp only
                refine ⟨fun hcontra => ?_, fun a ts' hcontra => by cases hcontra⟩
                cases hcontra
                exact trailing_closure_error_not_fuelOut ht rfl
              | ok p3 =>
                obtain ⟨o, ts4⟩ := p3
                have hd4 := trailing_closure_spec ht
                cases o with
                | none =>
                  dsimp only
                  refine ⟨(fun hcontra => by cases hcontra), fun a ts' hok => ?_⟩
                  cases hok
                  rcases hd4 with h4 | h4
                  · exact Or.inl (by omega)
                  · exact Or.inr h4
                | some tc =>
                  cases tc
                  case Asterisk =>
                    dsimp only
                    refine ⟨(fun hcontra => by cases hcontra), fun a ts' hok => ?_⟩
                    cases hok
                    rcases hd4 with h4 | h4
                    · exact Or.inl (by omega)
                    · exact Or.inr h4
                  case Plus =>
                    dsimp only
                    refine ⟨(fun hcontra => by cases hcontra), fun a ts' hok => ?_⟩
                    cases hok
                    rcases hd4 with h4 | h4
                    · exact Or.inl (by omega)
                    · exact Or.inr h4
                  all_goals
                    dsimp only
                    exact ⟨(fun hcontra => by cases hcontra), fun a ts' hcontra => by cases hcontra⟩
        case LBrack =>
          dsimp only
          simp only [parse_character_class]
          have hmu1 : mu ts1 < mu ts := hlt1 (by simp)
          cases hcl : class_loop f ts1 [] with
          | error e =>
            dsimp only
            refine ⟨fun hcontra => ?_, fun a ts' hcontra => by cases hcontra⟩
            cases hcontra
            exact ((IHclass ts1 (by omega) f (by omega)) []).1 hcl
          | ok p2 =>
            obtain ⟨items, ts2⟩ := p2
            dsimp only
            obtain ⟨hb2, hpk2⟩ := ((IHclass ts1 (by omega) f (by omega)) []).2 items ts2 hcl
            cases ht : trailing_closure ts2 with
            | error e3 =>
              dsimp only
              refine ⟨fun hcontra => ?_, fun a ts' hcontra => by cases hcontra⟩
              cases hcontra
              exact trailing_closure_error_not_fuelOut ht rfl
            | ok p3 =>
              obtain ⟨o, ts4⟩ := p3
              have hd4 := trailing_closure_spec ht
              cases o with
              | none =>
                dsimp only
                refine ⟨(fun hcontra => by cases hcontra), fun a ts' hok => ?_⟩
                cases hok
                rcases hd4 with h4 | h4
                · exact Or.inl (by omega)
                · exact Or.inr h4
              | some tc =>
                cases tc
                case Asterisk =>
                  dsimp only
                  refine ⟨(fun hcontra => by cases hcontra), fun a ts' hok => ?_⟩
                  cases hok
                  rcases hd4 with h4 | h4
                  · exact Or.inl (by omega)
                  · exact Or.inr h4
                case Plus =>
                  dsimp only
                  refine ⟨(fun hcontra => by cases hcontra), fun a ts' hok => ?_⟩
                  cases hok
                  rcases hd4 with h4 | h4
                  · exact Or.inl (by omega)
                  · exact Or.inr h4
                all_goals
                  dsimp only
                  exact ⟨(fun hcontra => by cases hcontra), fun a ts' hcontra => by cases hcontra⟩
        case Id s =>
          dsimp only
          have hmu1 : mu ts1 < mu ts := hlt1 (by simp)
          cases ht : trailing_closure ts1 with
          | error e3 =>
            dsimp only
            refine ⟨fun hcontra => ?_, fun a ts' hcontra => by cases hcontra⟩
            cases hcontra
            exact trailing_closure_error_not_fuelOut ht rfl
          | ok p3 =>
            obtain ⟨o, ts4⟩ := p3
            have hd4 := trailing_closure_spec ht
            cases o with
            | none =>
              dsimp only
              refine ⟨(fun hcontra => by cases hcontra), fun a ts' hok => ?_⟩
              cases hok
              rcases hd4 with h4 | h4
              · exact Or.inl (by omega)
              · exact Or.inr h4
            | some tc =>
              cases tc
              case Asterisk =>
                dsimp only
                refine ⟨(fun hcontra => by cases hcontra), fun a ts' hok => ?_⟩
                cases hok
                rcases hd4 with h4 | h4
                · exact Or.inl (by omega)
                · exact Or.inr h4
              case Plus =>
                dsimp only
                refine ⟨(fun hcontra => by cases hcontra), fun a ts' hok => ?_⟩
                cases hok
                rcases hd4 with h4 | h4
                · exact Or.inl (by omega)
                · exact Or.inr h4
              all_goals
                dsimp only
                exact ⟨(fun hcontra => by cases hcontra), fun a ts' hcontra => by cases hcontra⟩
        case String s =>
          dsimp only
          have hmu1 : mu ts1 < mu ts := hlt1 (by simp)
          cases ht : trailing_closure ts1 with
          | error e3 =>
            dsimp only
            refine ⟨fun hcontra => ?_, fun a ts' hcontra => by cases hcontra⟩
            cases hcontra
            exact trailing_closure_error_not_fuelOut ht rfl
          | ok p3 =>
            obtain ⟨o, ts4⟩ := p3
            have hd4 := trailing_closure_spec ht
            cases o with
            | none =>
              dsimp only
              refine ⟨(fun hcontra => by cases hcontra), fun a ts' hok => ?_⟩
              cases hok
              rcases hd4 with h4 | h4
              · exact Or.inl (by omega)
              · exact Or.inr h4
            | some tc =>
              cases tc
              case Asterisk =>
                dsimp only
                refine ⟨(fun hcontra => by cases hcontra), fun a ts' hok => ?_⟩
                cases hok
                rcases hd4 with h4 | h4
                · exact Or.inl (by omega)
                · exact Or.inr h4
              case Plus =>
                dsimp only
                refine ⟨(fun hcontra => by cases hcontra), fun a ts' hok => ?_⟩
                cases hok
                rcases hd4 with h4 | h4
                · exact Or.inl (by omega)
                · exact Or.inr h4
              all_goals
                dsimp only
                exact ⟨(fun hcontra => by cases hcontra), fun a ts' hcontra => by cases hcontra⟩
        all_goals
          dsimp only
          exact ⟨(fun hcontra => by cases hcontra), fun a ts' hcontra => by cases hcontra⟩
    have hConcat : ∀ fuel, 4*n+13 ≤ fuel → GoodConcat fuel ts := by
      intro fuel hfuel
      unfold GoodConcat
      obtain ⟨f, rfl⟩ : ∃ f, fuel = f + 1 := ⟨fuel - 1, by omega⟩
      simp only [parse_concat_succ, parse_concat_body]
      have hGF := hFactor f (by omega)
      cases hpf : parse_factor f ts with
      | error e =>
        dsimp only
        refine ⟨fun hcontra => ?_, fun a ts' hcontra => by cases hcontra⟩
        cases hcontra
        exact hGF.1 hpf
      | ok p =>
        obtain ⟨left, ts1⟩ := p
        dsimp only
        have hd1 := hGF.2 left ts1 hpf
        cases hn : next_token ts1 with
        | error e =>
          dsimp only
          refine ⟨fun hcontra => ?_, fun a ts' hcontra => by cases hcontra⟩
          cases hcontra
          exact next_token_error_not_fuelOut hn rfl
        | ok p2 =>
          obtain ⟨t, ts2⟩ := p2
          obtain ⟨hp2, htm2, hle2, hlt2, hEof2, hpn2⟩ := next_token_spec hn
          split
          · rename_i e heq
            cases heq
          · -- Bar ends the concatenation
            rename_i ts2b heq
            injection heq with hpair
            injection hpair with h1 h2
            rw [← h2]
            refine ⟨(fun hcontra => by cases hcontra), fun a ts' hok => ?_⟩
            cases hok
            have hmu1 : mu ts1 < mu ts := by
              rcases hd1 with h | hE
              · exact h
              · rw [next_token_eofstate hE] at hn; cases hn; cases h1
            have hlt2x : mu ts2 < mu ts1 := hlt2 (by rw [h1]; simp)
            refine Or.inl ?_
            rw [mu_return_token]
            have h6 := mu_peek_none hp2
            omega
          · -- End ends the concatenation
            rename_i ts2b heq
            injection heq with hpair
            injection hpair with h1 h2
            rw [← h2]
            refine ⟨(fun hcontra => by cases hcontra), fun a ts' hok => ?_⟩
            cases hok
            have hmu1 : mu ts1 < mu ts := by
              rcases hd1 with h | hE
              · exact h
              · rw [next_token_eofstate hE] at hn; cases hn; cases h1
            have hlt2x : mu ts2 < mu ts1 := hlt2 (by rw [h1]; simp)
            refine Or.inl ?_
            rw [mu_return_token]
            have h6 := mu_peek_none hp2
            omega
          · -- RParen ends the concatenation
            rename_i ts2b heq
            injection heq with hpair
            injection hpair with h1 h2
            rw [← h2]
            refine ⟨(fun hcontra => by cases hcontra), fun a ts' hok => ?_⟩
            cases hok
            have hmu1 : mu ts1 < mu ts := by
              rcases hd1 with h | hE
              · exact h
              · rw [next_token_eofstate hE] at hn; cases hn; cases h1
            have hlt2x : mu ts2 < mu ts1 := hlt2 (by rw [h1]; simp)
            refine Or.inl ?_
            rw [mu_return_token]
            have h6 := mu_peek_none hp2
            omega
          · -- any other token: push it back and parse another concat
            rename_i tok ts2b hnb hne hnr heq
            injection heq with hpair
            injection hpair with h1 h2
            rw [← h1, ← h2]
            by_cases htk : t = Token.Eof
            · subst htk
              rcases hd1 with hmu1 | hE
              · rcases hEof2 rfl with hb | hlt2x
                · obtain ⟨f', rfl⟩ : ∃ f', f = f' + 2 := ⟨f - 2, by omega⟩
                  rw [parse_concat_eofstate (by simpa [return_token] using hb)
                    (by simp [return_token]) f']
                  dsimp only
                  exact ⟨(fun hcontra => by cases hcontra), fun a ts' hcontra => by cases hcontra⟩
                · split
                  · rename_i e2 heq2
                    refine ⟨fun hcontra => ?_, fun a ts' hcontra => by cases hcontra⟩
                    cases hcontra
                    exact (IHconcat (return_token ts2 Token.Eof)
                      (by rw [mu_return_token]; have h6 := mu_peek_none hp2; omega)
                      f (by omega)).1 heq2
                  · rename_i right ts4 heq2
                    refine ⟨(fun hcontra => by cases hcontra), fun a ts' hok => ?_⟩
                    cases hok
                    rcases (IHconcat (return_token ts2 Token.Eof)
                        (by rw [mu_return_token]; have h6 := mu_peek_none hp2; omega)
                        f (by omega)).2 right ts4 heq2 with h4 | h4
                    · refine Or.inl ?_
                      rw [mu_return_token] at h4
                      have h6 := mu_peek_none hp2
                      omega
                    · exact Or.inr h4
              · rw [next_token_eofstate hE] at hn
                cases hn
                obtain ⟨f', rfl⟩ : ∃ f', f = f' + 2 := ⟨f - 2, by omega⟩
                rw [parse_concat_eofstate (by simpa [return_token] using hE.1)
                  (by simp [return_token]) f']
                dsimp only
                exact ⟨(fun hcontra => by cases hcontra), fun a ts' hcontra => by cases hcontra⟩
            · have hmu1 : mu ts1 < mu ts := by
                rcases hd1 with h | hE
                · exact h
                · rw [next_token_eofstate hE] at hn; cases hn; exact absurd rfl htk
              have hlt2x : mu ts2 < mu ts1 := hlt2 htk
              split
              · rename_i e2 heq2
                refine ⟨fun hcontra => ?_, fun a ts' hcontra => by cases hcontra⟩
                cases hcontra
                exact (IHconcat (return_token ts2 t)
                  (by rw [mu_return_token]; have h6 := mu_peek_none hp2; omega)
                  f (by omega)).1 heq2
              · rename_i right ts4 heq2
                refine ⟨(fun hcontra => by cases hcontra), fun a ts' hok => ?_⟩
                cases hok
                rcases (IHconcat (return_token ts2 t)
                    (by rw [mu_return_token]; have h6 := mu_peek_none hp2; omega)
                    f (by omega)).2 right ts4 heq2 with h4 | h4
                · refine Or.inl ?_
                  rw [mu_return_token] at h4
                  have h6 := mu_peek_none hp2
                  omega
                · exact Or.inr h4
    have hUnion : ∀ fuel, 4*n+14 ≤ fuel → GoodUnion fuel ts := by
      intro fuel hfuel
      unfold GoodUnion
      obtain ⟨f, rfl⟩ : ∃ f, fuel = f + 1 := ⟨fuel - 1, by omega⟩
      simp only [parse_union_succ, parse_union_body]
      have hGC := hConcat f (by omega)
      cases hpc : parse_concat f ts with
      | error e =>
        dsimp only
        refine ⟨fun hcontra => ?_, fun a ts' hcontra => by cases hcontra⟩
        cases hcontra
        exact hGC.1 hpc
      | ok p =>
        obtain ⟨left, ts1⟩ := p
        dsimp only
        have hd1 := hGC.2 left ts1 hpc
        cases hn : next_token ts1 with
        | error e =>
          dsimp only
          refine ⟨fun hcontra => ?_, fun a ts' hcontra => by cases hcontra⟩
          cases hcontra
          exact next_token_error_not_fuelOut hn rfl
        | ok p2 =>
          obtain ⟨t, ts2⟩ := p2
          obtain ⟨hp2, htm2, hle2, hlt2, hEof2, hpn2⟩ := next_token_spec hn
          split
          · rename_i e heq
            cases heq
          · -- a Bar: parse the right-hand union
            rename_i ts2b heq
            injection heq with hpair
            injection hpair with h1 h2
            rw [← h2]
            have hmu1 : mu ts1 ≤ mu ts := by
              rcases hd1 with h | hE
              · exact h
              · rw [next_token_eofstate hE] at hn; cases hn; cases h1
            have hlt2x : mu ts2 < mu ts1 := hlt2 (by rw [h1]; simp)
            split
            · rename_i e2 heq2
              refine ⟨fun hcontra => ?_, fun a ts' hcontra => by cases hcontra⟩
              cases hcontra
              exact (IHunion ts2 (by omega) f (by omega)).1 heq2
            · rename_i right ts3 heq2
              refine ⟨(fun hcontra => by cases hcontra), fun a ts' hok => ?_⟩
              cases hok
              rcases (IHunion ts2 (by omega) f (by omega)).2 right ts3 heq2 with h4 | h4
              · exact Or.inl (by omega)
              · exact Or.inr h4
          · -- any other token: push it back and finish
            rename_i tok ts2b hnb heq
            injection heq with hpair
            injection hpair with h1 h2
            rw [← h1, ← h2]
            refine ⟨(fun hcontra => by cases hcontra), fun a ts' hok => ?_⟩
            cases hok
            by_cases htk : t = Token.Eof
            · subst htk
              rcases hd1 with hmu1 | hE
              · rcases hEof2 rfl with hb | hlt2x
                · exact Or.inr ⟨hb, rfl⟩
                · refine Or.inl ?_
                  rw [mu_return_token]
                  have h6 := mu_peek_none hp2
                  omega
              · rw [next_token_eofstate hE] at hn
                cases hn
                exact Or.inr ⟨hE.1, rfl⟩
            · have hmu1 : mu ts1 ≤ mu ts := by
                rcases hd1 with h | hE
                · exact h
                · rw [next_token_eofstate hE] at hn; cases hn; exact absurd rfl htk
              have hlt2x : mu ts2 < mu ts1 := hlt2 htk
              refine Or.inl ?_
              rw [mu_return_token]
              have h6 := mu_peek_none hp2
              omega
    exact ⟨hFactor, hClass, hConcat, hUnion⟩

theorem alpha_not_whitespace {c : Char} (h : c.isAlpha = true) : c.isWhitespace = false := by
  by_cases hw : c.isWhitespace = true
  · simp [Char.isWhitespace] at hw
    rcases hw with ((h1 | h1) | h1) | h1 <;> (subst h1; exact absurd h (by decide))
  · simpa using hw

theorem takeWhile_append_all {α : Type} {p : α → Bool} :
    ∀ {w tail : List α}, (∀ y ∈ w, p y = true) →
      (w ++ tail).takeWhile p = w ++ tail.takeWhile p ∧
      (w ++ tail).dropWhile p = tail.dropWhile p := by
  intro w
  induction w with
  | nil => intro tail _; simp
  | cons a w ih =>
    intro tail hw
    have ha : p a = true := hw a (by simp)
    have hrec := @ih tail (fun y hy => hw y (by simp [hy]))
    simp [List.takeWhile_cons, List.dropWhile_cons, ha, hrec.1, hrec.2]

theorem notid_break {s : Char} (hs : is_id_char s = false) (ss : List Char) :
    (s :: ss).takeWhile is_id_char = [] ∧ (s :: ss).dropWhile is_id_char = s :: ss := by
  rw [List.takeWhile_cons, List.dropWhile_cons]
  simp [hs]

theorem skip_whitespace_alpha {c : Char} (h : c.isAlpha = true) (xs : List Char) :
    skip_whitespace (c :: xs) = c :: xs := by
  unfold skip_whitespace
  rw [List.dropWhile_cons]
  simp [alpha_not_whitespace h]

theorem skip_whitespace_space_alpha {c : Char} (h : c.isAlpha = true) (xs : List Char) :
    skip_whitespace (' ' :: c :: xs) = c :: xs := by
  unfold skip_whitespace
  rw [List.dropWhile_cons, if_pos (by decide : Char.isWhitespace ' ' = true)]
  rw [List.dropWhile_cons]
  simp [alpha_not_whitespace h]

theorem next_token_raw_alpha_core {ts : TokenStream} {c : Char} {xs : List Char}
    (hsw : skip_whitespace ts.buffer = c :: xs) (hc : c.isAlpha = true) :
    next_token_raw ts =
      .ok (.Id (c :: xs.takeWhile is_id_char),
        { ts with buffer := xs.dropWhile is_id_char }) := by
  have h1 : ¬(c = '[') := fun h => by subst h; exact absurd hc (by decide)
  have h2 : ¬(c = ']') := fun h => by subst h; exact absurd hc (by decide)
  have h3 : ¬(c = '(') := fun h => by subst h; exact absurd hc (by decide)
  have h4 : ¬(c = ')') := fun h => by subst h; exact absurd hc (by decide)
  have h5 : ¬(c = '*') := fun h => by subst h; exact absurd hc (by decide)
  have h6 : ¬(c = '+') := fun h => by subst h; exact absurd hc (by decide)
  have h7 : ¬(c = '|') := fun h => by subst h; exact absurd hc (by decide)
  have h8 : ¬(c = '-') := fun h => by subst h; exact absurd hc (by decide)
  have h9 : ¬(c = '\'') := fun h => by subst h; exact absurd hc (by decide)
  have h10 : ¬(c = '"') := fun h => by subst h; exact absurd hc (by decide)
  unfold next_token_raw
  rw [hsw]
  dsimp only
  rw [if_neg h1, if_neg h2, if_neg h3, if_neg h4, if_neg h5, if_neg h6, if_neg h7,
    if_neg h8, if_neg h9, if_neg h10, if_pos hc]
  rw [parse_id_eq]

theorem next_token_word {b : List Char} {c : Char} {w tail : List Char} {term : List Char}
    (hsw : skip_whitespace b = c :: (w ++ tail)) (hc : c.isAlpha = true)
    (hw : ∀ y ∈ w, is_id_char y = true)
    (htail : tail.takeWhile is_id_char = [] ∧ tail.dropWhile is_id_char = tail) :
    next_token ⟨b, term, none⟩ = .ok (.Id (c :: w), ⟨tail, term, none⟩) := by
  have hcore := @next_token_raw_alpha_core ⟨b, term, none⟩ c (w ++ tail) hsw hc
  have hta := @takeWhile_append_all Char is_id_char w tail hw
  unfold next_token
  dsimp only
  rw [hcore]
  dsimp only
  rw [hta.1, hta.2, htail.1, htail.2]
  simp

theorem next_token_peek (b term : List Char) (t : Token) :
    next_token ⟨b, term, some t⟩ = .ok (t, ⟨b, term, none⟩) := rfl

theorem next_token_dash (b term : List Char) :
    next_token ⟨'-' :: b, term, none⟩ = .ok (.Dash, ⟨b, term, none⟩) := rfl

theorem next_token_rbrack (b term : List Char) :
    next_token ⟨']' :: b, term, none⟩ = .ok (.RBrack, ⟨b, term, none⟩) := rfl

theorem next_token_string_lit {s rest term : List Char} (h : '\'' ∉ s) :
    next_token ⟨'\'' :: (s ++ '\'' :: rest), term, none⟩ = .ok (.String s, ⟨rest, term, none⟩) := by
  have hps : parse_string '\'' (s ++ '\'' :: rest) = some (s, rest) := by
    rw [parse_string_eq]
    have hmem : '\'' ∈ s ++ '\'' :: rest := by simp
    rw [if_pos hmem]
    have hta := @takeWhile_append_all Char (fun c => c != '\'') s ('\'' :: rest)
      (fun y hy => by
        have hne : y ≠ '\'' := fun hEq => h (hEq ▸ hy)
        simpa using hne)
    rw [hta.1, hta.2]
    simp [List.takeWhile_cons, List.dropWhile_cons]
  have hraw : next_token_raw ⟨'\'' :: (s ++ '\'' :: rest), term, none⟩ =
      .ok (.String s, ⟨rest, term, none⟩) := by
    have key : next_token_raw ⟨'\'' :: (s ++ '\'' :: rest), term, none⟩ =
        (match parse_string '\'' (s ++ '\'' :: rest) with
         | none => .error (.unterminatedString '\'')
         | some (s2, r) => .ok (.String s2, ⟨r, term, none⟩)) := rfl
    rw [key, hps]
  unfold next_token
  dsimp only
  rw [hraw]

theorem trailing_closure_bar (b term : List Char) :
    trailing_closure ⟨'|' :: b, term, none⟩ = .ok (none, ⟨b, term, some .Bar⟩) := rfl

theorem trailing_closure_comma (b : List Char) :
    trailing_closure ⟨',' :: b, [','], none⟩ = .ok (none, ⟨b, [','], some .End⟩) := rfl

theorem trailing_closure_space_word {c : Char} {w tail term : List Char}
    (hc : c.isAlpha = true) (hw : ∀ y ∈ w, is_id_char y = true)
    (htail : tail.takeWhile is_id_char = [] ∧ tail.dropWhile is_id_char = tail) :
    trailing_closure ⟨' ' :: ((c :: w) ++ tail), term, none⟩ =
      .ok (none, ⟨tail, term, some (.Id (c :: w))⟩) := by
  have hsw : skip_whitespace (' ' :: ((c :: w) ++ tail)) = c :: (w ++ tail) :=
    skip_whitespace_space_alpha hc (w ++ tail)
  unfold trailing_closure
  rw [next_token_word hsw hc hw htail]
  rfl

theorem parse_factor_word (c : Char) (w tail term : List Char) (fuel : Nat)
    (hc : c.isAlpha = true) (hw : ∀ y ∈ w, is_id_char y = true)
    (htail : tail.takeWhile is_id_char = [] ∧ tail.dropWhile is_id_char = tail)
    {ts3 : TokenStream}
    (htc : trailing_closure ⟨tail, term, none⟩ = .ok (none, ts3)) :
    parse_factor (fuel+1) ⟨(c :: w) ++ tail, term, none⟩ = .ok (.Symb (c :: w), ts3) := by
  have hsw : skip_whitespace ((c :: w) ++ tail) = c :: (w ++ tail) := by
    rw [List.cons_append]
    exact skip_whitespace_alpha hc (w ++ tail)
  rw [parse_factor_succ]
  unfold parse_factor_body
  rw [next_token_word hsw hc hw htail]
  dsimp only
  rw [htc]

theorem parse_factor_peek_id (s buf term : List Char) (fuel : Nat)
    {ts3 : TokenStream}
    (htc : trailing_closure ⟨buf, term, none⟩ = .ok (none, ts3)) :
    parse_factor (fuel+1) ⟨buf, term, some (.Id s)⟩ = .ok (.Symb s, ts3) := by
  rw [parse_factor_succ]
  unfold parse_factor_body
  rw [next_token_peek]
  dsimp only
  rw [htc]

theorem unionTail_break (atoms : List (Char × List Char)) :
    (unionTail atoms).takeWhile is_id_char = [] ∧
    (unionTail atoms).dropWhile is_id_char = unionTail atoms := by
  cases atoms with
  | nil => exact ⟨rfl, rfl⟩
  | cons b rest => exact notid_break (by decide) _

theorem concatTail_break (atoms : List (Char × List Char)) :
    (concatTail atoms).takeWhile is_id_char = [] ∧
    (concatTail atoms).dropWhile is_id_char = concatTail atoms := by
  cases atoms with
  | nil => exact ⟨rfl, rfl⟩
  | cons b rest => exact notid_break (by decide) _

theorem union_chain_eval :
    ∀ (atoms : List (Char × List Char)) (a : Char × List Char) (fuel : Nat),
      goodWord a → (∀ b ∈ atoms, goodWord b) → atoms.length + 3 ≤ fuel →
      parse_union fuel ⟨unionChain a atoms, [','], none⟩ =
        .ok (unionAst a atoms, ⟨[], [','], some .End⟩) := by
  intro atoms
  induction atoms with
  | nil =>
    intro a fuel ha _ hfuel
    obtain ⟨f, rfl⟩ : ∃ f, fuel = f + 3 := ⟨fuel - 3, by omega⟩
    simp only [unionChain, unionTail, idWord]
    have hfac := parse_factor_word a.1 a.2 [','] [','] f ha.1 ha.2 ⟨rfl, rfl⟩
      (trailing_closure_comma [])
    have hcon : parse_concat (f+2) ⟨(a.1 :: a.2) ++ [','], [','], none⟩ =
        .ok (.Symb (a.1 :: a.2), ⟨[], [','], some .End⟩) := by
      rw [show f+2 = (f+1)+1 from rfl, parse_concat_succ]
      unfold parse_concat_body
      rw [hfac]
      dsimp only
      rw [next_token_peek]
      rfl
    rw [show f+3 = (f+2)+1 from rfl, parse_union_succ]
    unfold parse_union_body
    rw [hcon]
    dsimp only
    rw [next_token_peek]
    rfl
  | cons b rest ih =>
    intro a fuel ha hall hfuel
    have hb : goodWord b := hall b (by simp)
    have hrest : ∀ x ∈ rest, goodWord x := fun x hx => hall x (by simp [hx])
    obtain ⟨f, rfl⟩ : ∃ f, fuel = f + 1 := ⟨fuel - 1, by omega⟩
    have hf : rest.length + 3 ≤ f := by
      simp only [List.length_cons] at hfuel
      omega
    obtain ⟨g, rfl⟩ : ∃ g, f = g + 2 := ⟨f - 2, by omega⟩
    simp only [unionChain, unionTail, idWord]
    have hfac := parse_factor_word a.1 a.2 ('|' :: ((b.1 :: b.2) ++ unionTail rest)) [','] g
      ha.1 ha.2 (notid_break (by decide) _) (trailing_closure_bar _ _)
    have hcon : parse_concat (g+2)
        ⟨(a.1 :: a.2) ++ ('|' :: ((b.1 :: b.2) ++ unionTail rest)), [','], none⟩ =
        .ok (.Symb (a.1 :: a.2), ⟨(b.1 :: b.2) ++ unionTail rest, [','], some .Bar⟩) := by
      rw [show g+2 = (g+1)+1 from rfl, parse_concat_succ]
      unfold parse_concat_body
      rw [hfac]
      dsimp only
      rw [next_token_peek]
      rfl
    rw [parse_union_succ]
    unfold parse_union_body
    rw [hcon]
    dsimp only
    rw [next_token_peek]
    dsimp only
    have hih := ih b (g+2) hb hrest hf
    rw [show (⟨unionChain b rest, [','], none⟩ : TokenStream) =
        (⟨(b.1 :: b.2) ++ unionTail rest, [','], none⟩ : TokenStream) from rfl] at hih
    rw [hih]
    rfl

theorem concat_tail_eval :
    ∀ (atoms : List (Char × List Char)) (d : Char × List Char) (fuel : Nat),
      goodWord d → (∀ b ∈ atoms, goodWord b) → atoms.length + 3 ≤ fuel →
      parse_concat fuel ⟨concatTail atoms, [','], some (.Id (idWord d))⟩ =
        .ok (concatAst d atoms, ⟨[], [','], some .End⟩) := by
  intro atoms
  induction atoms with
  | nil =>
    intro d fuel _ _ hfuel
    obtain ⟨f, rfl⟩ : ∃ f, fuel = f + 2 := ⟨fuel - 2, by omega⟩
    simp only [concatTail, idWord]
    have hfac := parse_factor_peek_id (d.1 :: d.2) [','] [','] f (trailing_closure_comma [])
    rw [show f+2 = (f+1)+1 from rfl, parse_concat_succ]
    unfold parse_concat_body
    rw [hfac]
    dsimp only
    rw [next_token_peek]
    rfl
  | cons b rest ih =>
    intro d fuel _ hall hfuel
    have hb : goodWord b := hall b (by simp)
    have hrest : ∀ x ∈ rest, goodWord x := fun x hx => hall x (by simp [hx])
    obtain ⟨g, rfl⟩ : ∃ g, fuel = g + 2 := ⟨fuel - 2, by omega⟩
    have hf : rest.length + 3 ≤ g + 1 := by
      simp only [List.length_cons] at hfuel
      omega
    simp only [concatTail, idWord]
    have htc : trailing_closure ⟨' ' :: ((b.1 :: b.2) ++ concatTail rest), [','], none⟩ =
        .ok (none, ⟨concatTail rest, [','], some (.Id (b.1 :: b.2))⟩) :=
      trailing_closure_space_word hb.1 hb.2 (concatTail_break rest)
    have hfac := parse_factor_peek_id (d.1 :: d.2)
      (' ' :: ((b.1 :: b.2) ++ concatTail rest)) [','] g htc
    rw [show g+2 = (g+1)+1 from rfl, parse_concat_succ]
    unfold parse_concat_body
    rw [hfac]
    dsimp only
    rw [next_token_peek]
    dsimp only
    have hih := ih b (g+1) hb hrest hf
    rw [show (⟨concatTail rest, [','], some (.Id (idWord b))⟩ : TokenStream) =
        return_token ⟨concatTail rest, [','], none⟩ (.Id (b.1 :: b.2)) from rfl] at hih
    rw [hih]
    rfl

theorem parse_concat_chain (atoms : List (Char × List Char)) (a : Char × List Char)
    (fuel : Nat) (ha : goodWord a) (hall : ∀ b ∈ atoms, goodWord b)
    (hfuel : atoms.length + 4 ≤ fuel) :
    parse_concat fuel ⟨concatChain a atoms, [','], none⟩ =
      .ok (concatAst a atoms, ⟨[], [','], some .End⟩) := by
  obtain ⟨g, rfl⟩ : ∃ g, fuel = g + 2 := ⟨fuel - 2, by omega⟩
  cases atoms with
  | nil =>
    simp only [concatChain, concatTail, idWord]
    have hfac := parse_factor_word a.1 a.2 [','] [','] g ha.1 ha.2 ⟨rfl, rfl⟩
      (trailing_closure_comma [])
    rw [show g+2 = (g+1)+1 from rfl, parse_concat_succ]
    unfold parse_concat_body
    rw [hfac]
    dsimp only
    rw [next_token_peek]
    rfl
  | cons b rest =>
    have hb : goodWord b := hall b (by simp)
    have hrest : ∀ x ∈ rest, goodWord x := fun x hx => hall x (by simp [hx])
    have hf : rest.length + 3 ≤ g + 1 := by
      simp only [List.length_cons] at hfuel
      omega
    simp only [concatChain, concatTail, idWord]
    have htc : trailing_closure ⟨' ' :: ((b.1 :: b.2) ++ concatTail rest), [','], none⟩ =
        .ok (none, ⟨concatTail rest, [','], some (.Id (b.1 :: b.2))⟩) :=
      trailing_closure_space_word hb.1 hb.2 (concatTail_break rest)
    have hfac := parse_factor_word a.1 a.2 (' ' :: ((b.1 :: b.2) ++ concatTail rest)) [','] g
      ha.1 ha.2 (notid_break (by decide) _) htc
    rw [show g+2 = (g+1)+1 from rfl, parse_concat_succ]
    unfold parse_concat_body
    rw [hfac]
    dsimp only
    rw [next_token_peek]
    dsimp only
    have hih := concat_tail_eval rest b (g+1) hb hrest hf
    rw [show (⟨concatTail rest, [','], some (.Id (idWord b))⟩ : TokenStream) =
        return_token ⟨concatTail rest, [','], none⟩ (.Id (b.1 :: b.2)) from rfl] at hih
    rw [hih]
    rfl

theorem concat_chain_eval (atoms : List (Char × List Char)) (a : Char × List Char)
    (fuel : Nat) (ha : goodWord a) (hall : ∀ b ∈ atoms, goodWord b)
    (hfuel : atoms.length + 5 ≤ fuel) :
    parse_union fuel ⟨concatChain a atoms, [','], none⟩ =
      .ok (concatAst a atoms, ⟨[], [','], some .End⟩) := by
  obtain ⟨f, rfl⟩ : ∃ f, fuel = f + 1 := ⟨fuel - 1, by omega⟩
  have hcon := parse_concat_chain atoms a f ha hall (by omega)
  rw [parse_union_succ]
  unfold parse_union_body
  rw [hcon]
  dsimp only
  rw [next_token_peek]
  rfl

theorem class_range_step {c1 c2 : Char} {w1 w2 brest term : List Char}
    (res : List ClassItem) (fuel : Nat)
    (h1 : '\'' ∉ c1 :: w1) (h2 : '\'' ∉ c2 :: w2) :
    class_loop (fuel+1)
      ⟨'\'' :: ((c1 :: w1) ++ '\'' :: '-' :: '\'' :: ((c2 :: w2) ++ '\'' :: brest)),
        term, none⟩ res =
      class_loop fuel ⟨brest, term, none⟩ (res ++ [.Range c1 c2]) := by
  simp only [class_loop]
  rw [next_token_string_lit h1]
  dsimp only
  rw [next_token_dash]
  dsimp only
  rw [next_token_string_lit h2]
  dsimp only
  rw [show char_at (c1 :: w1) 0 = .ok c1 from rfl]
  dsimp only
  rw [show char_at (c2 :: w2) 0 = .ok c2 from rfl]

theorem class_singles_step {s brest term : List Char} {tok : Token} {ts2 : TokenStream}
    (res : List ClassItem) (fuel : Nat) (h : '\'' ∉ s)
    (hn : next_token ⟨brest, term, none⟩ = .ok (tok, ts2)) (htok : tok ≠ .Dash) :
    class_loop (fuel+1) ⟨'\'' :: (s ++ '\'' :: brest), term, none⟩ res =
      class_loop fuel (return_token ts2 tok) (res ++ [.Singles s]) := by
  simp only [class_loop]
  rw [next_token_string_lit h]
  dsimp only
  rw [hn]
  cases tok <;> first | rfl | exact absurd rfl htok

theorem class_close (b term : List Char) (res : List ClassItem) (fuel : Nat) :
    class_loop (fuel+1) ⟨b, term, some .RBrack⟩ res = .ok (res, ⟨b, term, none⟩) := rfl

/-- Claim C1, as stated by the spec, is false on the code: an expression that
is a single identifier followed by raw end of input does not parse.
`parse_concat` treats only `Bar`, `End` and `RParen` as ending a
concatenation; an `Eof` token is pushed back and re-read by `parse_factor`,
which fails with an unexpected-token error.  This theorem exhibits the
failure at the spec's own example input "a". -/
theorem c1_counterexample :
    parse_regexp 20 (initTS ['a'] [',']) = .error (.unexpectedInRegexp .Eof) := rfl

/-- Claim C1 (amended): `Bar`, `End` and `RParen` end a concatenation after a
factor, but `Eof` does not; a single identifier parses to `Symbol` of that
identifier only when a terminator follows, as in parse of "a," with
terminator set containing the comma, which yields `Symb "a"` with the `End`
token left in the lookahead slot. -/
theorem c1_amended :
    parse_regexp 20 (initTS ['a', ','] [',']) =
      .ok (.Symb ['a'], { buffer := [], term := [','], peek := some .End }) := rfl

/-- Claim C2: with terminator set containing only the comma and input
"letter*," followed by any further characters, `parse_regexp` returns
`Star (Symb "letter")`, consumes exactly the characters up to and including
the terminating comma and nothing past it (the remainder is untouched in the
buffer), and leaves an `End` token pending in the one-token lookahead slot,
so the caller's next token request returns `End`. -/
theorem c2_terminator_protocol (rest : List Char) :
    parse_regexp 30 (initTS (['l','e','t','t','e','r','*',','] ++ rest) [',']) =
      .ok (.Star (.Symb ['l','e','t','t','e','r']),
        { buffer := rest, term := [','], peek := some .End }) ∧
    next_token { buffer := rest, term := [','], peek := some .End } =
      .ok (.End, { buffer := rest, term := [','], peek := none }) :=
  ⟨rfl, rfl⟩

/-- Claim C3, as stated by the spec, is false on the code at its own example:
parse of "a(b|c)*" with no trailing terminator fails with an
unexpected-token error, because `Eof` does not end a concatenation (see C1).
The right-nesting property itself holds but only for terminated inputs. -/
theorem c3_counterexample :
    parse_regexp 30 (initTS ['a','(','b','|','c',')','*'] [',']) =
      .error (.unexpectedInRegexp .Eof) := rfl

/-- Claim C3 (amended): for comma-terminated inputs the claimed right
nesting holds universally over chains of any length (three or more
alternatives or factors included) and over arbitrary identifier atoms:
every alternation chain `a1|a2|...|an,` parses as
`Union a1 (Union a2 (... an))` and every concatenation chain
`a1 a2 ... an,` as `Conc a1 (Conc a2 (... an))`, right-nested, with fuel
linear in the chain length; and the spec's own mixed example succeeds once
terminated, "a(b|c)*," parsing as
`Conc (Symb a) (Star (Union (Symb b) (Symb c)))`. -/
theorem c3_amended :
    (∀ (a : Char × List Char) (atoms : List (Char × List Char)) (fuel : Nat),
      goodWord a → (∀ b ∈ atoms, goodWord b) → atoms.length + 3 ≤ fuel →
      parse_regexp fuel (initTS (unionChain a atoms) [',']) =
        .ok (unionAst a atoms, { buffer := [], term := [','], peek := some .End })) ∧
    (∀ (a : Char × List Char) (atoms : List (Char × List Char)) (fuel : Nat),
      goodWord a → (∀ b ∈ atoms, goodWord b) → atoms.length + 5 ≤ fuel →
      parse_regexp fuel (initTS (concatChain a atoms) [',']) =
        .ok (concatAst a atoms, { buffer := [], term := [','], peek := some .End })) ∧
    parse_regexp 30 (initTS ['a','(','b','|','c',')','*',','] [',']) =
      .ok (.Conc (.Symb ['a']) (.Star (.Union (.Symb ['b']) (.Symb ['c']))),
        { buffer := [], term := [','], peek := some .End }) :=
  ⟨fun a atoms fuel ha hall hfuel => union_chain_eval atoms a fuel ha hall hfuel,
   fun a atoms fuel ha hall hfuel => concat_chain_eval atoms a fuel ha hall hfuel,
   rfl⟩

/-- Witness for the amended C3 at a concrete chain of three atoms: the
universal clauses instantiated at "a|b|c," and "a b c," give the
right-nested trees. -/
theorem c3_witness :
    parse_regexp 5 (initTS ['a','|','b','|','c',','] [',']) =
      .ok (.Union (.Symb ['a']) (.Union (.Symb ['b']) (.Symb ['c'])),
        { buffer := [], term := [','], peek := some .End }) ∧
    parse_regexp 7 (initTS ['a',' ','b',' ','c',','] [',']) =
      .ok (.Conc (.Symb ['a']) (.Conc (.Symb ['b']) (.Symb ['c'])),
        { buffer := [], term := [','], peek := some .End }) := by
  constructor
  · exact c3_amended.1 ('a', []) [('b', []), ('c', [])] 5
      ⟨by decide, fun y hy => nomatch hy⟩
      (by
        intro x hx
        simp only [List.mem_cons, List.not_mem_nil, or_false] at hx
        rcases hx with rfl | rfl
        · exact ⟨by decide, fun y hy => nomatch hy⟩
        · exact ⟨by decide, fun y hy => nomatch hy⟩)
      (by decide)
  · exact c3_amended.2.1 ('a', []) [('b', []), ('c', [])] 7
      ⟨by decide, fun y hy => nomatch hy⟩
      (by
        intro x hx
        simp only [List.mem_cons, List.not_mem_nil, or_false] at hx
        rcases hx with rfl | rfl
        · exact ⟨by decide, fun y hy => nomatch hy⟩
        · exact ⟨by decide, fun y hy => nomatch hy⟩)
      (by decide)

/-- Claim C4, as stated by the spec, is false on the code at its own example:
the full parse of "['ab''cd''0'-'9''55']" with no trailing terminator fails
with an unexpected-token error after the class is read, because `Eof` does
not end a concatenation (see C1).  The character-class parser itself behaves
as claimed (see the amended theorem). -/
theorem c4_counterexample :
    parse_regexp 30
      (initTS ['[','\'','a','b','\'','\'','c','d','\'','\'','0','\'','-','\'','9','\'',
        '\'','5','5','\'',']'] [',']) =
      .error (.unexpectedInRegexp .Eof) := rfl

/-- Claim C4 (amended): the character-class loop appends items in input
order exactly as claimed, universally: any quote-free literal followed by
`Dash` and a second quote-free literal appends `Range` over the first
character of each bound, so multi-character bounds of any length are
truncated to their first character, never rejected; any quote-free literal
whose following token is not `Dash` appends `Singles` of the whole literal
with that token pushed back; and a pending `RBrack` closes the class with
the accumulated items.  Concretely, the multi-character-bound class
"'ab'-'xy']" yields exactly `[Range of a and x]`, the class items of
"'ab''cd''0'-'9''55']" are
`[Singles "ab", Singles "cd", Range of 0 and 9, Singles "55"]`, an
immediately closed class yields no items, and the full parse of the spec's
example succeeds only when ended by a terminator, as in
"['ab''cd''0'-'9''55'],". -/
theorem c4_amended :
    (∀ (c1 c2 : Char) (w1 w2 brest term : List Char) (res : List ClassItem) (fuel : Nat),
      '\'' ∉ c1 :: w1 → '\'' ∉ c2 :: w2 →
      class_loop (fuel+1)
        ⟨'\'' :: ((c1 :: w1) ++ '\'' :: '-' :: '\'' :: ((c2 :: w2) ++ '\'' :: brest)),
          term, none⟩ res =
        class_loop fuel ⟨brest, term, none⟩ (res ++ [.Range c1 c2])) ∧
    (∀ (s brest term : List Char) (tok : Token) (ts2 : TokenStream) (res : List ClassItem)
        (fuel : Nat),
      '\'' ∉ s → next_token ⟨brest, term, none⟩ = .ok (tok, ts2) → tok ≠ .Dash →
      class_loop (fuel+1) ⟨'\'' :: (s ++ '\'' :: brest), term, none⟩ res =
        class_loop fuel (return_token ts2 tok) (res ++ [.Singles s])) ∧
    (∀ (b term : List Char) (res : List ClassItem) (fuel : Nat),
      class_loop (fuel+1) ⟨b, term, some .RBrack⟩ res = .ok (res, ⟨b, term, none⟩)) ∧
    class_loop 30 (initTS ['\'','a','b','\'','-','\'','x','y','\'',']'] [',']) [] =
      .ok ([.Range 'a' 'x'], { buffer := [], term := [','], peek := none }) ∧
    class_loop 30
      (initTS ['\'','a','b','\'','\'','c','d','\'','\'','0','\'','-','\'','9','\'',
        '\'','5','5','\'',']'] [',']) [] =
      .ok ([.Singles ['a','b'], .Singles ['c','d'], .Range '0' '9', .Singles ['5','5']],
        { buffer := [], term := [','], peek := none }) ∧
    class_loop 5 (initTS [']'] [',']) [] =
      .ok ([], { buffer := [], term := [','], peek := none }) ∧
    parse_regexp 30
      (initTS ['[','\'','a','b','\'','\'','c','d','\'','\'','0','\'','-','\'','9','\'',
        '\'','5','5','\'',']',','] [',']) =
      .ok (.CharClass [.Singles ['a','b'], .Singles ['c','d'], .Range '0' '9',
          .Singles ['5','5']],
        { buffer := [], term := [','], peek := some .End }) :=
  ⟨fun c1 c2 w1 w2 brest term res fuel h1 h2 => class_range_step res fuel h1 h2,
   fun s brest term tok ts2 res fuel h hn htok => class_singles_step res fuel h hn htok,
   fun b term res fuel => class_close b term res fuel,
   rfl, rfl, rfl, rfl⟩

/-- Witness for the amended C4 at concrete inputs: the universal range
clause applied to the two-character bounds "ab" and "xy" truncates to
`Range of a and x`, and the universal singles clause applied to "ab"
followed by the closing bracket appends `Singles "ab"`. -/
theorem c4_witness :
    class_loop 2 (initTS ['\'','a','b','\'','-','\'','x','y','\'',']'] [',']) [] =
      .ok ([.Range 'a' 'x'], { buffer := [], term := [','], peek := none }) ∧
    class_loop 2 (initTS ['\'','a','b','\'',']'] [',']) [] =
      .ok ([.Singles ['a','b']], { buffer := [], term := [','], peek := none }) := by
  constructor
  · have h := c4_amended.1 'a' 'x' ['b'] ['y'] [']'] [','] [] 1 (by decide) (by decide)
    rw [show (initTS ['\'','a','b','\'','-','\'','x','y','\'',']'] [',']) =
      (⟨'\'' :: (('a' :: ['b']) ++ '\'' :: '-' :: '\'' :: (('x' :: ['y']) ++ '\'' :: [']'])),
        [','], none⟩ : TokenStream) from rfl, show (2 : Nat) = 1 + 1 from rfl, h]
    rfl
  · have h := c4_amended.2.1 ['a','b'] [']'] [','] .RBrack ⟨[], [','], none⟩ [] 1
      (by decide) rfl (by decide)
    rw [show (initTS ['\'','a','b','\'',']'] [',']) =
      (⟨'\'' :: (['a','b'] ++ '\'' :: [']']), [','], none⟩ : TokenStream) from rfl,
      show (2 : Nat) = 1 + 1 from rfl, h]
    rfl

/-- Claim C5: scanning a quoted string literal returns exactly the characters
strictly between the opening delimiter and the next occurrence of the same
delimiter (delimiters excluded, a quote of the other kind kept as literal
text, no escape mechanism) if and only if the same delimiter recurs before
end of input; when input is exhausted first the scan fails, which the
tokenizer surfaces as the unterminated-string lexical error. -/
theorem c5_string_literal_scan (delim : Char) (buf : List Char) (term : List Char) :
    parse_string delim buf =
      (if delim ∈ buf then
        some (buf.takeWhile (fun c => c != delim), (buf.dropWhile (fun c => c != delim)).tail)
      else none) ∧
    ((delim = '\'' ∨ delim = '"') → delim ∉ buf →
      next_token_raw (initTS (delim :: buf) term) = .error (.unterminatedString delim)) := by
  refine ⟨parse_string_eq delim buf, fun hd hnm => ?_⟩
  have hps : parse_string delim buf = none := by
    rw [parse_string_eq, if_neg hnm]
  rcases hd with h | h
  · subst h
    have key : next_token_raw (initTS ('\'' :: buf) term) =
        (match parse_string '\'' buf with
         | none => .error (.unterminatedString '\'')
         | some (s, r) => .ok (.String s, { buffer := r, term := term, peek := none })) := rfl
    rw [key, hps]
  · subst h
    have key : next_token_raw (initTS ('"' :: buf) term) =
        (match parse_string '"' buf with
         | none => .error (.unterminatedString '"')
         | some (s, r) => .ok (.String s, { buffer := r, term := term, peek := none })) := rfl
    rw [key, hps]

/-- Witness for C5 at a concrete input: a single-quoted literal over the
rest "abc", whose opening quote never recurs, scans to `none` and lexes to
the unterminated-string error. -/
theorem c5_witness :
    parse_string '\'' ['a','b','c'] = none ∧
    next_token_raw (initTS ('\'' :: ['a','b','c']) [',']) =
      .error (.unterminatedString '\'') := by
  have h := c5_string_literal_scan '\'' ['a','b','c'] [',']
  refine ⟨?_, h.2 (Or.inl rfl) (by decide)⟩
  rw [h.1]
  rfl

/-- Claim C6: an identifier scan returns the leading character plus the
longest following run of alphanumeric-or-underscore characters; the first
character failing that test is left at the front of the Character Source
(not the token stream), so the next character read is exactly that
character, and it is excluded from the identifier text. -/
theorem c6_identifier_scan (first : Char) (buf : List Char) :
    parse_id first buf = (first :: buf.takeWhile is_id_char, buf.dropWhile is_id_char) ∧
    (∀ c cs, (parse_id first buf).2 = c :: cs →
      is_id_char c = false ∧ (next_char (parse_id first buf).2).1 = some c) := by
  refine ⟨parse_id_eq first buf, fun c cs h => ?_⟩
  constructor
  · rw [parse_id_eq] at h
    dsimp only at h
    exact dropWhile_head_not h
  · rw [h]
    rfl

/-- Witness for C6 at a concrete input: scanning an identifier starting with
the character n over the rest "_times|" stops at the bar, which stays
available as the next character. -/
theorem c6_witness :
    parse_id 'n' ['_','t','i','m','e','s','|'] = (['n','_','t','i','m','e','s'], ['|']) ∧
    is_id_char '|' = false ∧
    (next_char ((parse_id 'n' ['_','t','i','m','e','s','|']).2)).1 = some '|' := by
  have h := c6_identifier_scan 'n' ['_','t','i','m','e','s','|']
  exact ⟨h.1.trans rfl, (h.2 '|' [] rfl).1, (h.2 '|' [] rfl).2⟩

/-- Claim C7: in a scanner state with no pending pushback, pushing a token
back and requesting the next token returns exactly that token unchanged and
restores the state (the lookahead slot is cleared), so a second request goes
to the raw tokenizer over the underlying character stream. -/
theorem c7_pushback_roundtrip (ts : TokenStream) (t : Token) (h : ts.peek = none) :
    next_token (return_token ts t) = .ok (t, ts) ∧
    (∀ e, next_token_raw ts = .error e → next_token ts = .error e) ∧
    (∀ t2 ts2, next_token_raw ts = .ok (t2, ts2) →
      next_token ts = .ok (t2, { ts2 with peek := none })) := by
  obtain ⟨b, tm, pk⟩ := ts
  dsimp only at h
  subst h
  refine ⟨rfl, fun e hr => ?_, fun t2 ts2 hr => ?_⟩
  · unfold next_token
    rw [hr]
  · unfold next_token
    rw [hr]

/-- Witness for C7 at a concrete state and token: after pushing `Bar` back
and reading it again, the next read scans the identifier x from the
underlying character stream. -/
theorem c7_witness :
    next_token (return_token (initTS ['x'] [',']) .Bar) = .ok (.Bar, initTS ['x'] [',']) ∧
    next_token (initTS ['x'] [',']) =
      .ok (.Id ['x'], { buffer := [], term := [','], peek := none }) := by
  have h := c7_pushback_roundtrip (initTS ['x'] [',']) .Bar rfl
  exact ⟨h.1, h.2.2 (.Id ['x']) { buffer := [], term := [','], peek := none } rfl⟩

/-- Claim C8: each of the malformed inputs "['A'--'Z']" (double dash in a
class), "['A'*'Z']" (closure token inside a class where a literal or range
was expected) and the unterminated string "'abc" fails with an error; the
result type carries no tree on the error side, so no parse error returns a
partially built AST, every error aborting the whole parse. -/
theorem c8_malformed_inputs_fail :
    parse_regexp 30 (initTS ['[','\'','A','\'','-','-','\'','Z','\'',']'] [',']) =
      .error .illFormedRange ∧
    parse_regexp 30 (initTS ['[','\'','A','\'','*','\'','Z','\'',']'] [',']) =
      .error (.unexpectedInClass .Asterisk) ∧
    parse_regexp 30 (initTS ['\'','a','b','c'] [',']) =
      .error (.unterminatedString '\'') :=
  ⟨rfl, rfl, rfl⟩

/-- Claim C9: for every finite input and terminator set, `parse_regexp`
terminates: with fuel linear in the input length (eight per character plus a
constant) the parse never exhausts its fuel, so it returns an AST or fails
with a genuine parse error after a bounded computation, even though
`parse_concat` pushes the inspected token back before recursing. -/
theorem c9_parse_regexp_terminates (input term : List Char) :
    parse_regexp (8 * input.length + 14) (initTS input term) ≠ .error .fuelOut := by
  have h := ((parsers_adequate (2 * input.length)) (initTS input term)
    (by simp [mu, initTS, peekW])).2.2.2 (8 * input.length + 14) (by omega)
  unfold GoodUnion at h
  unfold parse_regexp
  exact h.1

/-- Witness for C9 at a concrete input: the bound evaluates on the input
"a," with terminator comma. -/
theorem c9_witness :
    parse_regexp (8 * (['a', ','] : List Char).length + 14) (initTS ['a', ','] [',']) ≠
      .error .fuelOut :=
  c9_parse_regexp_terminates ['a', ','] [',']

/-- Claim C10: when either string literal of a character-class range is
empty, as in "[''-'z']" or "['a'-'']", the unguarded first-character access
`char_at 0` on the empty literal fails with an out-of-bounds error, a
distinct error constructor outside the lexical and syntactic error
taxonomy; the empty-literal case is never checked before the access. -/
theorem c10_empty_range_bounds_failure :
    parse_regexp 30 (initTS ['[','\'','\'','-','\'','z','\'',']'] [',']) =
      .error .boundsError ∧
    parse_regexp 30 (initTS ['[','\'','a','\'','-','\'','\'',']'] [',']) =
      .error .boundsError ∧
    class_loop 30 (initTS ['\'','\'','-','\'','z','\'',']'] [',']) [] =
      .error .boundsError :=
  ⟨rfl, rfl, rfl⟩

end Rslex
